import Mathlib

/-!
Verification development for the go-nasr schema-driven relational builder.

The Go sources are embedded shallowly: pure helpers become Lean functions,
the SQLite-backed repair passes become functions on explicit table states,
and machine floats are modelled as exact rationals (the numeric value of a
parsed decimal literal).  Strings are Lean `String`s; byte streams are
`List Char` (the CSV delimiters involved are all ASCII, so the byte/rune
distinction is immaterial for the modelled behaviour).
-/

namespace Nasr

/-- A SQL value produced by the loader: NULL, a text string, or a REAL
number.  The REAL payload is the exact decimal value as a rational;
float64 rounding performed by Go strconv.ParseFloat is abstracted away. -/
inductive Value where
  | null : Value
  | str : String → Value
  | real : ℚ → Value
deriving DecidableEq

/-- Column definition (struct columnDef in src/unnamed/part_004): normalized
name, mapped data type, nullability flag. -/
structure ColumnDef where
  name : String
  dataType : String
  nullable : Bool
deriving DecidableEq

/-- Table schema (struct tableSchema in src/unnamed/part_004): table name and
ordered column list. -/
structure TableSchema where
  name : String
  columns : List ColumnDef
deriving DecidableEq

/-- ASCII decimal digit test. -/
def isDig (c : Char) : Bool := decide ('0' ≤ c) && decide (c ≤ '9')

/-- Value of a digit string read in base 10. -/
def digitsVal (cs : List Char) : ℕ :=
  cs.foldl (fun a c => 10 * a + (c.toNat - '0'.toNat)) 0

/-- Model of the decimal fragment of Go strconv.ParseFloat (base-10 syntax:
optional sign, digits with an optional single dot, optional e/E exponent).
Hexadecimal floats, the special Inf/NaN spellings and digit-separating
underscores — none of which occur in the NASR data or in the claims — are
outside the modelled fragment.  The result is the exact decimal value. -/
def parseGoFloat (s : String) : Option ℚ :=
  let cs := s.toList
  let sgnCs : ℚ × List Char :=
    match cs with
    | '+' :: r => (1, r)
    | '-' :: r => (-1, r)
    | r => (1, r)
  let ip := sgnCs.2.takeWhile isDig
  let cs2 := sgnCs.2.dropWhile isDig
  let fpCs : List Char × List Char :=
    match cs2 with
    | '.' :: r => (r.takeWhile isDig, r.dropWhile isDig)
    | r => ([], r)
  if ip = [] ∧ fpCs.1 = [] then none
  else
    let mant : ℚ := (digitsVal (ip ++ fpCs.1) : ℚ) / (10 : ℚ) ^ fpCs.1.length
    match fpCs.2 with
    | [] => some (sgnCs.1 * mant)
    | 'e' :: r =>
      match parseExpTail r with
      | some e => some (sgnCs.1 * mant * (10 : ℚ) ^ e)
      | none => none
    | 'E' :: r =>
      match parseExpTail r with
      | some e => some (sgnCs.1 * mant * (10 : ℚ) ^ e)
      | none => none
    | _ => none
where
  /-- Exponent tail: optional sign then one or more digits, ending the string. -/
  parseExpTail (cs : List Char) : Option ℤ :=
    let sgnCs : ℤ × List Char :=
      match cs with
      | '+' :: r => (1, r)
      | '-' :: r => (-1, r)
      | r => (1, r)
    let ds := sgnCs.2.takeWhile isDig
    let rest := sgnCs.2.dropWhile isDig
    if ds = [] ∨ rest ≠ [] then none
    else some (sgnCs.1 * (digitsVal ds : ℤ))

/-- convertValue from src/loader.go (lines 108-119): the empty string on a
nullable column becomes NULL; a non-empty value on a REAL column becomes the
parsed number when it parses and the original string otherwise; everything
else passes through as the original string. -/
def convertValue (val : String) (col : ColumnDef) : Value :=
  if val = "" ∧ col.nullable then Value.null
  else if col.dataType = "REAL" ∧ val ≠ "" then
    match parseGoFloat val with
    | some f => Value.real f
    | none => Value.str val
  else Value.str val

/-- Row-to-values conversion in loadCSV (src/loader.go lines 91-98): column i
takes convertValue of field i when the row has one, NULL when the row is
short.  The Go loop indexes columns and tests i < len(row); this structural
recursion computes the same list. -/
def rowVals : List String → List ColumnDef → List Value
  | _, [] => []
  | [], _ :: cs => Value.null :: rowVals [] cs
  | v :: vs, c :: cs => convertValue v c :: rowVals vs cs

/-- Record reading under Go csv.Reader's default FieldsPerRecord.  loadCSV,
unlike parseSchemas, does not set FieldsPerRecord (src/loader.go line 74), so
the first record read fixes the expected field count and any later record
with a different count makes Read return ErrFieldCount, which loadCSV
returns (src/loader.go lines 86-88): the whole load aborts. -/
def readChecked (n : ℕ) : List (List String) → Except Unit (List (List String))
  | [] => Except.ok []
  | r :: rs =>
    if r.length = n then (readChecked n rs).map (fun l => r :: l)
    else Except.error ()

/-- loadCSV (src/loader.go lines 50-105) at the record level, abstracting the
byte layer (BOM strip, quoting) and the INSERT side: the header record is read
and discarded but fixes the reader's expected field count — an unreadable
header (empty input) is an error — then every data row is read under that
count check and converted columnwise by rowVals.  The result is the list of
inserted value rows; any read error aborts with the error. -/
def loadCSV (cols : List ColumnDef) (recs : List (List String)) :
    Except Unit (List (List Value)) :=
  match recs with
  | [] => Except.error ()
  | header :: rows =>
    (readChecked header.length rows).map (fun rs => rs.map (fun r => rowVals r cols))

/-- Modelled from the spec: the static sentinel-null override list
(variable sentinelNulls, referenced from src/unnamed/part_004 but defined in
a source file that is not among the provided ones).  Keys are
(table, column) pairs; the payload is the literal sentinel string used in
place of NULL.  Spec §4.1/§4.3.1 describe the list; the repository test
TestConvertValue attests the entry for DP_BASE.DP_COMPUTER_CODE with
sentinel "NOT ASSIGNED".  Only attested entries are modelled. -/
def sentinelNulls : List ((String × String) × String) :=
  [(("DP_BASE", "DP_COMPUTER_CODE"), "NOT ASSIGNED")]

/-- Modelled from the spec: the table-name-aware value coercion
(the three-argument convertValue exercised by TestConvertValue; the
two-argument version in src/loader.go predates the sentinel feature).
Per spec §4.3.1, the sentinel string on a column known to use that sentinel
coerces to NULL regardless of the nullable flag; all other inputs follow the
two-argument coercion. -/
def convertValueSent (tableName : String) (val : String) (col : ColumnDef) : Value :=
  match sentinelNulls.find? (fun e => e.1 = (tableName, col.name)) with
  | some e => if val = e.2 then Value.null else convertValue val col
  | none => convertValue val col

/-- Sentinel nullability override step (src/unnamed/part_004 lines 103-112):
for one (table, column) key, force nullable on every matching column of the
matching table. -/
def overrideOne (ts : List TableSchema) (key : String × String) : List TableSchema :=
  ts.map (fun t =>
    if t.name = key.1 then
      ⟨t.name, t.columns.map (fun c =>
        if c.name = key.2 then ⟨c.name, c.dataType, true⟩ else c)⟩
    else t)

/-- Sentinel nullability override pass (src/unnamed/part_004 lines 100-112):
apply overrideOne for every key of the sentinel list. -/
def applySentinelOverrides (ts : List TableSchema) : List TableSchema :=
  sentinelNulls.foldl (fun acc e => overrideOne acc e.1) ts

/-- ASCII whitespace, for the TrimSpace model. -/
def isSpaceChar (c : Char) : Bool :=
  c = ' ' || c = '\t' || c = '\n' || c = '\r' || c = '\x0b' || c = '\x0c'

/-- Model of strings.TrimSpace restricted to ASCII whitespace (the Unicode
space classes do not occur in the metadata). -/
def trimSpace (s : String) : String :=
  ⟨(((s.data.dropWhile isSpaceChar).reverse).dropWhile isSpaceChar).reverse⟩

/-- Column-name normalization (src/unnamed/part_004 line 76): every space
becomes an underscore. -/
def normName (s : String) : String :=
  ⟨s.data.map (fun c => if c = ' ' then '_' else c)⟩

/-- Type mapping (src/unnamed/part_004 lines 78-83): VARCHAR to TEXT, NUMBER
to REAL, anything else unchanged. -/
def mapType (t : String) : String :=
  if t = "VARCHAR" then "TEXT" else if t = "NUMBER" then "REAL" else t

/-- Append a column to the named table of the schema list, creating the table
at the end when absent (the Go map insert in src/unnamed/part_004 lines
87-96, with map iteration modelled as insertion order). -/
def addColumn (ts : List TableSchema) (tname : String) (c : ColumnDef) : List TableSchema :=
  match ts with
  | [] => [⟨tname, [c]⟩]
  | t :: rest =>
    if t.name = tname then ⟨t.name, t.columns ++ [c]⟩ :: rest
    else t :: addColumn rest tname c

/-- Processing of one metadata record (body of the record loop in
parseSchemas, src/unnamed/part_004 lines 58-97): records with fewer than 5
fields are skipped; otherwise the trimmed fields 0,1,3,4 give table name,
column name, data type and nullability, the column name has spaces replaced
by underscores, the type is mapped, and nullable means the exact token
"Yes". -/
def processRecord (ts : List TableSchema) (record : List String) : List TableSchema :=
  if record.length < 5 then ts
  else
    let tableName := trimSpace (record.getD 0 "")
    let colName := normName (trimSpace (record.getD 1 ""))
    let dataType := mapType (trimSpace (record.getD 3 ""))
    let nullable : Bool := trimSpace (record.getD 4 "") == "Yes"
    addColumn ts tableName ⟨colName, dataType, nullable⟩

/-- Columns currently recorded for a table name (first entry wins, matching
addColumn which extends the first matching entry). -/
def lookupCols (ts : List TableSchema) (n : String) : List ColumnDef :=
  ((ts.find? (fun t => t.name = n)).map TableSchema.columns).getD []

theorem lookupCols_addColumn (ts : List TableSchema) (n : String) (c : ColumnDef) :
    lookupCols (addColumn ts n c) n = lookupCols ts n ++ [c] := by
  induction ts with
  | nil => simp [addColumn, lookupCols]
  | cons t rest ih =>
    by_cases h : t.name = n
    · simp [addColumn, lookupCols, List.find?, h]
    · simpa [addColumn, lookupCols, List.find?, h] using ih

/-- C5. Value coercion (convertValue, src/loader.go) realizes exactly the
claimed case analysis: empty on nullable gives NULL, empty on non-nullable
gives the empty string, a non-empty value on a REAL column gives the parsed
number when it parses and the original string when it does not, and every
other case gives the original string unchanged. -/
theorem convertValue_case_analysis (val : String) (col : ColumnDef) :
    (col.nullable = true → convertValue "" col = Value.null) ∧
    (col.nullable = false → convertValue "" col = Value.str "") ∧
    (val ≠ "" → col.dataType = "REAL" →
      (∀ q, parseGoFloat val = some q → convertValue val col = Value.real q) ∧
      (parseGoFloat val = none → convertValue val col = Value.str val)) ∧
    (val ≠ "" → col.dataType ≠ "REAL" → convertValue val col = Value.str val) := by
  refine ⟨?_, ?_, ?_, ?_⟩
  · intro h; simp [convertValue, h]
  · intro h; simp [convertValue, h]
  · intro hv ht
    constructor
    · intro q hq; simp [convertValue, hv, ht, hq]
    · intro hq; simp [convertValue, hv, ht, hq]
  · intro hv ht; simp [convertValue, hv, ht]

/-- Witness for C5 at concrete inputs: the empty string on nullable and
non-nullable TEXT columns, "123.45" and "abc" on a REAL column. -/
theorem convertValue_case_analysis_witness :
    convertValue "" ⟨"A", "TEXT", true⟩ = Value.null ∧
    convertValue "" ⟨"A", "TEXT", false⟩ = Value.str "" ∧
    convertValue "123.45" ⟨"X", "REAL", false⟩ = Value.real (2469 / 20) ∧
    convertValue "abc" ⟨"X", "REAL", false⟩ = Value.str "abc" := by
  have h1245 : parseGoFloat "123.45" = some (2469 / 20) := by
    have h : parseGoFloat "123.45" = some ((1 : ℚ) * ((12345 : ℕ) / (10 : ℚ) ^ 2)) := rfl
    rw [h]; norm_num
  refine ⟨(convertValue_case_analysis "" ⟨"A", "TEXT", true⟩).1 rfl,
          (convertValue_case_analysis "" ⟨"A", "TEXT", false⟩).2.1 rfl,
          ((convertValue_case_analysis "123.45" ⟨"X", "REAL", false⟩).2.2.1
            (by decide) rfl).1 (2469 / 20) h1245,
          ((convertValue_case_analysis "abc" ⟨"X", "REAL", false⟩).2.2.1
            (by decide) rfl).2 rfl⟩

theorem rowVals_length (row : List String) (cols : List ColumnDef) :
    (rowVals row cols).length = cols.length := by
  induction cols generalizing row with
  | nil => cases row <;> simp [rowVals]
  | cons c cs ih => cases row <;> simp [rowVals, ih]

theorem rowVals_getElem_pad (row : List String) (cols : List ColumnDef) (i : ℕ)
    (hrow : row.length ≤ i) (hcols : i < cols.length) :
    (rowVals row cols)[i]? = some Value.null := by
  induction cols generalizing row i with
  | nil => simp at hcols
  | cons c cs ih =>
    cases row with
    | nil =>
      cases i with
      | zero => simp [rowVals]
      | succ j =>
        have : (cs.length : ℕ) > j := by simpa using hcols
        simpa [rowVals] using ih [] j (by simp) this
    | cons v vs =>
      cases i with
      | zero => simp at hrow
      | succ j =>
        have h1 : vs.length ≤ j := by simpa using hrow
        have h2 : j < cs.length := by simpa using hcols
        simpa [rowVals] using ih vs j h1 h2

theorem rowVals_getElem_conv (row : List String) (cols : List ColumnDef) (i : ℕ)
    (v : String) (c : ColumnDef) (hv : row[i]? = some v) (hc : cols[i]? = some c) :
    (rowVals row cols)[i]? = some (convertValue v c) := by
  induction cols generalizing row i with
  | nil => simp at hc
  | cons c0 cs ih =>
    cases row with
    | nil => simp at hv
    | cons v0 vs =>
      cases i with
      | zero =>
        simp only [List.getElem?_cons_zero, Option.some.injEq] at hv hc
        subst hv; subst hc; simp [rowVals]
      | succ j =>
        simp only [List.getElem?_cons_succ] at hv hc
        simpa [rowVals] using ih vs j hv hc

/-- C4 fails as stated: loadCSV leaves the csv reader's FieldsPerRecord at
its default, so the header record fixes the field count and a data row with
fewer fields than the header aborts the load with ErrFieldCount instead of
being NULL-padded.  NULL padding occurs only against the schema, when the
file's uniform field count (header included) is below the schema's column
count, as the second conjunct shows on the same data row. -/
theorem short_row_error_counterexample :
    loadCSV [⟨"A", "TEXT", false⟩, ⟨"B", "TEXT", true⟩, ⟨"C", "TEXT", false⟩]
        [["A", "B", "C"], ["x", ""]] = Except.error () ∧
    loadCSV [⟨"A", "TEXT", false⟩, ⟨"B", "TEXT", true⟩, ⟨"C", "TEXT", false⟩]
        [["A", "B"], ["x", ""]] =
      Except.ok [[Value.str "x", Value.null, Value.null]] :=
  ⟨rfl, rfl⟩

theorem readChecked_ok (n : ℕ) (rows : List (List String))
    (h : ∀ r ∈ rows, r.length = n) : readChecked n rows = Except.ok rows := by
  induction rows with
  | nil => rfl
  | cons r rs ih =>
    rw [readChecked, if_pos (h r (List.mem_cons_self r rs)),
      ih (fun x hx => h x (List.mem_cons_of_mem r hx))]
    rfl

/-- C4, amended: a data row is only read if its field count matches the
header record's (Go csv's default FieldsPerRecord check); the load then
succeeds and converts every row in full — the columns beyond the row's
length become NULL and the fields that are present are coerced normally in
order, so rows shorter than the schema (the whole file having fewer columns
than the schema) are tolerated and NULL-padded. -/
theorem short_row_padded_with_null (cols : List ColumnDef) (header : List String)
    (rows : List (List String)) (hlen : ∀ r ∈ rows, r.length = header.length) :
    loadCSV cols (header :: rows) =
      Except.ok (rows.map (fun r => rowVals r cols)) ∧
    ∀ r ∈ rows,
      (rowVals r cols).length = cols.length ∧
      (∀ i, r.length ≤ i → i < cols.length → (rowVals r cols)[i]? = some Value.null) ∧
      (∀ (i : ℕ) (v : String) (c : ColumnDef), r[i]? = some v → cols[i]? = some c →
        (rowVals r cols)[i]? = some (convertValue v c)) := by
  constructor
  · show (readChecked header.length rows).map (fun rs => rs.map (fun r => rowVals r cols)) = _
    rw [readChecked_ok header.length rows hlen]
    rfl
  · intro r _
    exact ⟨rowVals_length r cols,
      fun i h1 h2 => rowVals_getElem_pad r cols i h1 h2,
      fun i v c hv hc => rowVals_getElem_conv r cols i v c hv hc⟩

/-- Witness for C4: a two-field row under a two-field header against a
three-column schema loads in full, with the third column NULL and the first
field coerced normally. -/
theorem short_row_padded_with_null_witness :
    (∀ r ∈ [["x", ""]], r.length = (["A", "B"] : List String).length) ∧
    loadCSV [⟨"A", "TEXT", false⟩, ⟨"B", "TEXT", true⟩, ⟨"C", "TEXT", false⟩]
        [["A", "B"], ["x", ""]] =
      Except.ok [[Value.str "x", Value.null, Value.null]] ∧
    (rowVals ["x", ""] [⟨"A", "TEXT", false⟩, ⟨"B", "TEXT", true⟩,
      ⟨"C", "TEXT", false⟩])[2]? = some Value.null ∧
    (rowVals ["x", ""] [⟨"A", "TEXT", false⟩, ⟨"B", "TEXT", true⟩,
      ⟨"C", "TEXT", false⟩])[0]? = some (Value.str "x") := by
  have h := short_row_padded_with_null
    [⟨"A", "TEXT", false⟩, ⟨"B", "TEXT", true⟩, ⟨"C", "TEXT", false⟩]
    ["A", "B"] [["x", ""]] (by decide)
  have hm := h.2 ["x", ""] (by simp)
  refine ⟨by decide, h.1.trans (by rfl), hm.2.1 2 (by decide) (by decide), ?_⟩
  exact (hm.2.2 0 "x" ⟨"A", "TEXT", false⟩ rfl rfl).trans rfl

/-- C9. Metadata type mapping (parseSchemas record loop, src/unnamed/part_004
lines 66-96): a record with at least 5 fields emits exactly one column,
appended to its table, whose data type is TEXT when the trimmed type token is
VARCHAR, REAL when it is NUMBER, and the token unchanged otherwise. -/
theorem metadata_type_mapping (ts : List TableSchema) (record : List String)
    (h5 : 5 ≤ record.length) :
    lookupCols (processRecord ts record) (trimSpace (record.getD 0 "")) =
      lookupCols ts (trimSpace (record.getD 0 "")) ++
        [⟨normName (trimSpace (record.getD 1 "")),
          mapType (trimSpace (record.getD 3 "")),
          trimSpace (record.getD 4 "") == "Yes"⟩] ∧
    (trimSpace (record.getD 3 "") = "VARCHAR" →
      mapType (trimSpace (record.getD 3 "")) = "TEXT") ∧
    (trimSpace (record.getD 3 "") = "NUMBER" →
      mapType (trimSpace (record.getD 3 "")) = "REAL") ∧
    (trimSpace (record.getD 3 "") ≠ "VARCHAR" → trimSpace (record.getD 3 "") ≠ "NUMBER" →
      mapType (trimSpace (record.getD 3 "")) = trimSpace (record.getD 3 "")) := by
  refine ⟨?_, ?_, ?_, ?_⟩
  · have hlt : ¬ record.length < 5 := by omega
    rw [processRecord, if_neg hlt]
    exact lookupCols_addColumn ts (trimSpace (record.getD 0 "")) _
  · intro h; rw [mapType, if_pos h]
  · intro h; rw [mapType, if_neg (by rw [h]; decide), if_pos h]
  · intro h1 h2; rw [mapType, if_neg h1, if_neg h2]

/-- Witness for C9: a concrete VARCHAR record emits a TEXT column. -/
theorem metadata_type_mapping_witness :
    lookupCols (processRecord [] ["T", "C", "2", "VARCHAR", "Yes"]) "T" =
      [⟨"C", "TEXT", true⟩] := by
  have h := (metadata_type_mapping [] ["T", "C", "2", "VARCHAR", "Yes"] (by decide)).1
  exact h.trans rfl

/-- C1. Sentinel-null coercion (modelled from the spec; the sentinel map and
the table-aware coercion are exercised by TestConvertValue but their defining
source file is not among the provided ones): for every entry of the sentinel
list, coercing the literal sentinel string on the listed column yields NULL
regardless of the nullable flag, the §4.1 override pass forces that column
nullable, and on any column that is not in the list the sentinel string is
returned unchanged. -/
theorem sentinel_coercion (key : String × String) (sv : String) (col : ColumnDef)
    (hmem : (key, sv) ∈ sentinelNulls) (hname : col.name = key.2) :
    convertValueSent key.1 sv col = Value.null ∧
    (∀ ts t c, t ∈ applySentinelOverrides ts → t.name = key.1 → c ∈ t.columns →
      c.name = key.2 → c.nullable = true) ∧
    (∀ tn (c : ColumnDef),
      sentinelNulls.find? (fun e => e.1 = (tn, c.name)) = none →
      convertValueSent tn sv c = Value.str sv) := by
  have hk : key = ("DP_BASE", "DP_COMPUTER_CODE") ∧ sv = "NOT ASSIGNED" := by
    simpa [sentinelNulls, Prod.ext_iff] using hmem
  obtain ⟨hk1, hk2⟩ := hk
  subst hk1; subst hk2
  refine ⟨?_, ?_, ?_⟩
  · simp [convertValueSent, sentinelNulls, List.find?, hname]
  · intro ts t c ht htn hc hcn
    have hfold : applySentinelOverrides ts = overrideOne ts ("DP_BASE", "DP_COMPUTER_CODE") := rfl
    rw [hfold] at ht
    obtain ⟨t0, ht0, hteq⟩ := List.mem_map.mp ht
    by_cases h0 : t0.name = "DP_BASE"
    · rw [if_pos h0] at hteq
      subst hteq
      simp only [TableSchema.mk.injEq] at *
      obtain ⟨c0, hc0, hceq⟩ := List.mem_map.mp hc
      by_cases h1 : c0.name = "DP_COMPUTER_CODE"
      · rw [if_pos h1] at hceq; subst hceq; rfl
      · rw [if_neg h1] at hceq; subst hceq; exact absurd hcn h1
    · rw [if_neg h0] at hteq
      subst hteq
      exact absurd htn h0
  · intro tn c hfind
    have hnone : convertValueSent tn "NOT ASSIGNED" c = convertValue "NOT ASSIGNED" c := by
      rw [convertValueSent, hfind]
    rw [hnone, convertValue]
    rw [if_neg (by simp)]
    by_cases hr : c.dataType = "REAL"
    · have hp : parseGoFloat "NOT ASSIGNED" = none := rfl
      rw [if_pos ⟨hr, by simp⟩, hp]
    · rw [if_neg (by simp [hr])]

/-- Witness for C1 at the attested sentinel entry: "NOT ASSIGNED" on
DP_BASE.DP_COMPUTER_CODE (declared NOT NULL) coerces to NULL, and the same
string on a column outside the list is returned unchanged. -/
theorem sentinel_coercion_witness :
    convertValueSent "DP_BASE" "NOT ASSIGNED" ⟨"DP_COMPUTER_CODE", "TEXT", false⟩ =
      Value.null ∧
    convertValueSent "DP_BASE" "NOT ASSIGNED" ⟨"OTHER", "TEXT", false⟩ =
      Value.str "NOT ASSIGNED" := by
  have h := sentinel_coercion ("DP_BASE", "DP_COMPUTER_CODE") "NOT ASSIGNED"
    ⟨"DP_COMPUTER_CODE", "TEXT", false⟩ (by simp [sentinelNulls]) rfl
  exact ⟨h.1, h.2.2 "DP_BASE" ⟨"OTHER", "TEXT", false⟩ rfl⟩

/-- Foreign key constraint (struct foreignKey in the source): child table,
ordered key columns (same names on parent and child), parent table. -/
structure ForeignKey where
  childTable : String
  columns : List String
  parentTable : String
deriving DecidableEq

/-- Hexadecimal digit character (lowercase), for modelling Go escapes. -/
def hexDigit (n : ℕ) : Char :=
  if n < 10 then Char.ofNat ('0'.toNat + n) else Char.ofNat ('a'.toNat + (n - 10))

/-- Escape of one character inside a Go %q string literal: quote and
backslash are escaped, \n \r \t use mnemonic escapes, other ASCII control
bytes use hexadecimal escapes, and everything else passes through.  (Go also
escapes non-printable characters above 0x7f; those do not occur in the
identifiers involved and are modelled as passing through.) -/
def quoteChar (c : Char) : List Char :=
  if c = '"' then ['\\', '"']
  else if c = '\\' then ['\\', '\\']
  else if c = '\n' then ['\\', 'n']
  else if c = '\r' then ['\\', 'r']
  else if c = '\t' then ['\\', 't']
  else if c.toNat < 32 ∨ c.toNat = 127 then
    ['\\', 'x', hexDigit (c.toNat / 16), hexDigit (c.toNat % 16)]
  else [c]

/-- Model of fmt %q applied to an identifier: the Go-syntax double-quoted
string literal. -/
def goQuote (s : String) : String :=
  ⟨'"' :: (s.data.flatMap quoteChar ++ ['"'])⟩

/-- Model of strings.Join. -/
def joinStr (sep : String) : List String → String
  | [] => ""
  | [s] => s
  | s :: rest => s ++ sep ++ joinStr sep rest

/-- One column line of a CREATE TABLE statement (generateDDL,
src/unnamed/part_004 lines 177-186): two-space indent, quoted name, type,
NOT NULL when not nullable, a comma unless this is the final line. -/
def columnLine (c : ColumnDef) (comma : Bool) : String :=
  "  " ++ goQuote c.name ++ " " ++ c.dataType ++
    (if c.nullable then "" else " NOT NULL") ++ (if comma then "," else "") ++ "\n"

/-- All column lines; the last column carries a comma exactly when FOREIGN
KEY clauses follow (the Go loop condition i < len-1 or len(fkMap) > 0). -/
def columnLines (haveFKs : Bool) : List ColumnDef → String
  | [] => ""
  | [c] => columnLine c haveFKs
  | c :: rest => columnLine c true ++ columnLines haveFKs rest

/-- One FOREIGN KEY clause line (generateDDL, src/unnamed/part_004 lines
188-202). -/
def fkLine (fk : ForeignKey) (comma : Bool) : String :=
  "  FOREIGN KEY (" ++ joinStr ", " (fk.columns.map goQuote) ++ ") REFERENCES " ++
    goQuote fk.parentTable ++ " (" ++ joinStr ", " (fk.columns.map goQuote) ++ ")" ++
    (if comma then "," else "") ++ "\n"

/-- All FOREIGN KEY clause lines; the last one carries no comma. -/
def fkLines : List ForeignKey → String
  | [] => ""
  | [f] => fkLine f false
  | f :: rest => fkLine f true ++ fkLines rest

/-- Foreign keys whose child is the given table, in catalog order (the
fkMap built at the top of generateDDL). -/
def fkMapFor (fks : List ForeignKey) (child : String) : List ForeignKey :=
  fks.filter (fun fk => fk.childTable = child)

/-- CREATE TABLE statement for one schema (generateDDL, src/unnamed/part_004
lines 172-205). -/
def tableStmt (ts : TableSchema) (fksOfChild : List ForeignKey) : String :=
  "CREATE TABLE " ++ goQuote ts.name ++ " (\n" ++
    columnLines (!fksOfChild.isEmpty) ts.columns ++ fkLines fksOfChild ++ ");"

/-- CREATE UNIQUE INDEX statement for one parent key (generateDDL,
src/unnamed/part_004 lines 213-221): the index name joins the parent table
and the column names with underscores. -/
def indexStmt (fk : ForeignKey) : String :=
  "CREATE UNIQUE INDEX " ++
    goQuote ("idx_" ++ fk.parentTable ++ "_" ++ joinStr "_" fk.columns) ++
    " ON " ++ goQuote fk.parentTable ++ " (" ++
    joinStr ", " (fk.columns.map goQuote) ++ ");"

/-- Dedup key used by generateDDL for parent unique indexes: the parent
table and the comma-joined column list (struct parentKey in the source). -/
def parentKeyOf (fk : ForeignKey) : String × String :=
  (fk.parentTable, joinStr "," fk.columns)

/-- First-occurrence dedup over parent keys (the seen-map loop of
generateDDL, src/unnamed/part_004 lines 154-162). -/
def dedupFKsAux (seen : List (String × String)) : List ForeignKey → List ForeignKey
  | [] => []
  | fk :: rest =>
    if parentKeyOf fk ∈ seen then dedupFKsAux seen rest
    else fk :: dedupFKsAux (parentKeyOf fk :: seen) rest

/-- Lexicographic comparison of character lists, the order Go uses on
strings (byte-wise comparison; UTF-8 byte order agrees with code-point
order). -/
def listLe : List Char → List Char → Bool
  | [], _ => true
  | _ :: _, [] => false
  | a :: as, b :: bs => if a = b then listLe as bs else decide (a < b)

/-- Go string ordering: lexicographic on the character sequence. -/
def strLe (a b : String) : Bool := listLe a.data b.data

theorem listLe_total : ∀ xs ys : List Char, listLe xs ys = true ∨ listLe ys xs = true := by
  intro xs
  induction xs with
  | nil => intro ys; exact Or.inl rfl
  | cons a as ih =>
    intro ys
    cases ys with
    | nil => exact Or.inr rfl
    | cons b bs =>
      by_cases hab : a = b
      · subst hab
        rcases ih bs with h | h
        · exact Or.inl (by simpa [listLe] using h)
        · exact Or.inr (by simpa [listLe] using h)
      · rcases lt_trichotomy a b with h | h | h
        · exact Or.inl (by simp [listLe, hab, h])
        · exact absurd h hab
        · exact Or.inr (by simp [listLe, Ne.symm hab, h])

theorem listLe_trans : ∀ xs ys zs : List Char,
    listLe xs ys = true → listLe ys zs = true → listLe xs zs = true := by
  intro xs
  induction xs with
  | nil => intro ys zs _ _; rfl
  | cons a as ih =>
    intro ys zs h1 h2
    cases ys with
    | nil => simp [listLe] at h1
    | cons b bs =>
      cases zs with
      | nil => simp [listLe] at h2
      | cons c cs =>
        by_cases hab : a = b <;> by_cases hbc : b = c
        · subst hab; subst hbc
          simp only [listLe, if_pos rfl] at h1 h2 ⊢
          exact ih bs cs h1 h2
        · subst hab
          simpa [listLe, hbc] using h2
        · subst hbc
          simpa [listLe, hab] using h1
        · simp only [listLe, if_neg hab, decide_eq_true_eq] at h1
          simp only [listLe, if_neg hbc, decide_eq_true_eq] at h2
          have hac : a < c := lt_trans h1 h2
          simp [listLe, ne_of_lt hac, hac]

theorem listLe_antisymm : ∀ xs ys : List Char,
    listLe xs ys = true → listLe ys xs = true → xs = ys := by
  intro xs
  induction xs with
  | nil =>
    intro ys _ h2
    cases ys with
    | nil => rfl
    | cons b bs => simp [listLe] at h2
  | cons a as ih =>
    intro ys h1 h2
    cases ys with
    | nil => simp [listLe] at h1
    | cons b bs =>
      by_cases hab : a = b
      · subst hab
        simp only [listLe, if_pos rfl] at h1 h2
        rw [ih bs h1 h2]
      · simp only [listLe, if_neg hab, decide_eq_true_eq] at h1
        simp only [listLe, if_neg (Ne.symm hab), decide_eq_true_eq] at h2
        exact absurd (lt_trans h1 h2) (lt_irrefl a)

/-- The string order as a relation, for the sorting lemmas. -/
def strLeRel (a b : String) : Prop := strLe a b = true

instance : DecidableRel strLeRel := fun a b => instDecidableEqBool (strLe a b) true

instance : IsTotal String strLeRel := ⟨fun a b => listLe_total a.data b.data⟩

instance : IsTrans String strLeRel :=
  ⟨fun a b c h1 h2 => listLe_trans a.data b.data c.data h1 h2⟩

instance : IsAntisymm String strLeRel :=
  ⟨fun a b h1 h2 => String.ext (listLe_antisymm a.data b.data h1 h2)⟩

/-- Deduplicated parent keys sorted by parent table (the sort.Slice call in
generateDDL; Go sort.Slice is deterministic on a fixed input slice and its
order among equal parent tables is unspecified — modelled with a
deterministic insertion sort). -/
def uniqueIndexFKs (fks : List ForeignKey) : List ForeignKey :=
  List.insertionSort (fun a b => strLeRel a.parentTable b.parentTable) (dedupFKsAux [] fks)

/-- Sorted table names (the sort.Strings call in generateDDL). -/
def sortedNames (tables : List TableSchema) : List String :=
  List.insertionSort strLeRel (tables.map TableSchema.name)

/-- Schema lookup by table name (the Go map index tables[name]; the map is
modelled as a list whose names are distinct). -/
def lookupSchema (tables : List TableSchema) (n : String) : Option TableSchema :=
  tables.find? (fun t => t.name = n)

/-- generateDDL (src/unnamed/part_004 lines 142-225): CREATE TABLE
statements in sorted table-name order, and CREATE UNIQUE INDEX statements
for the deduplicated parent keys. -/
def generateDDL (tables : List TableSchema) (fks : List ForeignKey) :
    List String × List String :=
  ((sortedNames tables).map (fun n =>
      match lookupSchema tables n with
      | some ts => tableStmt ts (fkMapFor fks n)
      | none => ""),
   (uniqueIndexFKs fks).map indexStmt)

theorem toFinset_map {α β : Type} [DecidableEq α] [DecidableEq β]
    (f : α → β) (l : List α) : (l.map f).toFinset = l.toFinset.image f := by
  induction l with
  | nil => simp
  | cons a as ih => simp [ih]

theorem dedupFKsAux_length (l : List ForeignKey) :
    ∀ seen : List (String × String),
      (dedupFKsAux seen l).length = ((l.map parentKeyOf).toFinset \ seen.toFinset).card := by
  induction l with
  | nil => intro seen; simp [dedupFKsAux]
  | cons fk rest ih =>
    intro seen
    by_cases hk : parentKeyOf fk ∈ seen
    · rw [show dedupFKsAux seen (fk :: rest) = dedupFKsAux seen rest by
        simp [dedupFKsAux, hk]]
      rw [ih seen]
      simp only [List.map_cons, List.toFinset_cons]
      rw [Finset.insert_sdiff_of_mem _ (List.mem_toFinset.mpr hk)]
    · rw [show dedupFKsAux seen (fk :: rest) =
          fk :: dedupFKsAux (parentKeyOf fk :: seen) rest by simp [dedupFKsAux, hk]]
      rw [List.length_cons, ih (parentKeyOf fk :: seen)]
      simp only [List.map_cons, List.toFinset_cons]
      rw [Finset.sdiff_insert, Finset.insert_sdiff_of_not_mem _
        (fun hc => hk (List.mem_toFinset.mp hc))]
      by_cases hx : parentKeyOf fk ∈ (rest.map parentKeyOf).toFinset \ seen.toFinset
      · rw [Finset.card_erase_add_one hx, Finset.insert_eq_self.mpr hx]
      · rw [Finset.erase_eq_of_not_mem hx, Finset.card_insert_of_not_mem hx]

theorem append_comma_inj : ∀ xs ys u v : List Char, ',' ∉ xs → ',' ∉ ys →
    xs ++ ',' :: u = ys ++ ',' :: v → xs = ys ∧ u = v := by
  intro xs
  induction xs with
  | nil =>
    intro ys u v _ hys h
    cases ys with
    | nil => simpa using h
    | cons y ys2 =>
      simp only [List.nil_append, List.cons_append, List.cons.injEq] at h
      exact absurd (h.1 ▸ List.mem_cons_self y ys2) (h.1 ▸ hys)
  | cons x xs2 ih =>
    intro ys u v hxs hys h
    cases ys with
    | nil =>
      simp only [List.cons_append, List.nil_append, List.cons.injEq] at h
      exact absurd (h.1 ▸ List.mem_cons_self x xs2) (h.1 ▸ hxs)
    | cons y ys2 =>
      simp only [List.cons_append, List.cons.injEq] at h
      obtain ⟨hxy, hrest⟩ := h
      have hx2 : ',' ∉ xs2 := fun hc => hxs (List.mem_cons_of_mem x hc)
      have hy2 : ',' ∉ ys2 := fun hc => hys (List.mem_cons_of_mem y hc)
      obtain ⟨h1, h2⟩ := ih ys2 u v hx2 hy2 hrest
      exact ⟨by rw [hxy, h1], h2⟩

theorem joinStr_data_cons (s t : String) (rest : List String) :
    (joinStr "," (s :: t :: rest)).data = s.data ++ ',' :: (joinStr "," (t :: rest)).data := by
  show (s ++ "," ++ joinStr "," (t :: rest)).data = _
  rw [String.data_append, String.data_append]
  simp

theorem joinStr_comma_inj : ∀ a b : List String, a ≠ [] → b ≠ [] →
    (∀ s ∈ a, ',' ∉ s.data) → (∀ s ∈ b, ',' ∉ s.data) →
    joinStr "," a = joinStr "," b → a = b := by
  intro a
  induction a with
  | nil => intro b ha; exact absurd rfl ha
  | cons s ar ih =>
    intro b _ hb hac hbc h
    cases b with
    | nil => exact absurd rfl hb
    | cons t br =>
      cases ar with
      | nil =>
        cases br with
        | nil => simpa [joinStr] using h
        | cons t2 br2 =>
          have hd : s.data = t.data ++ ',' :: (joinStr "," (t2 :: br2)).data := by
            have := congrArg String.data h
            rwa [joinStr_data_cons] at this
          exact absurd (hd ▸ (List.mem_append_right t.data (List.mem_cons_self _ _)))
            (hac s (List.mem_cons_self s []))
      | cons s2 ar2 =>
        cases br with
        | nil =>
          have hd : t.data = s.data ++ ',' :: (joinStr "," (s2 :: ar2)).data := by
            have := congrArg String.data h.symm
            rwa [joinStr_data_cons] at this
          exact absurd (hd ▸ (List.mem_append_right s.data (List.mem_cons_self _ _)))
            (hbc t (List.mem_cons_self t []))
        | cons t2 br2 =>
          have hd := congrArg String.data h
          rw [joinStr_data_cons, joinStr_data_cons] at hd
          obtain ⟨h1, h2⟩ := append_comma_inj s.data t.data _ _
            (hac s (List.mem_cons_self s _)) (hbc t (List.mem_cons_self t _)) hd
          have hs : s = t := String.ext h1
          have hr : (s2 :: ar2) = (t2 :: br2) :=
            ih (t2 :: br2) (by simp) (by simp)
              (fun x hx => hac x (List.mem_cons_of_mem s hx))
              (fun x hx => hbc x (List.mem_cons_of_mem t hx))
              (String.ext h2)
          rw [hs, hr]

/-- C6 fails as stated: generateDDL deduplicates parent keys by the
comma-joined column string, so two constraints with distinct column lists
["a,b"] and ["a", "b"] against the same parent collapse into one unique
index although the (parentTable, columns) pairs are distinct. -/
theorem ddl_index_dedup_counterexample :
    (generateDDL [] [⟨"C1", ["a,b"], "P"⟩, ⟨"C2", ["a", "b"], "P"⟩]).2.length = 1 ∧
    (([⟨"C1", ["a,b"], "P"⟩, ⟨"C2", ["a", "b"], "P"⟩] : List ForeignKey).map
        (fun fk => (fk.parentTable, fk.columns))).dedup.length = 2 := by
  exact ⟨rfl, rfl⟩

/-- C6 (amended). When no column name contains a comma and every constraint
has at least one key column — true of every catalog the program ships — DDL
synthesis emits exactly one unique-index statement per distinct
(parentTable, columns) pair and exactly one table-creation statement per
schema. -/
theorem ddl_one_index_per_parent_key (tables : List TableSchema) (fks : List ForeignKey)
    (hne : ∀ fk ∈ fks, fk.columns ≠ [])
    (hcomma : ∀ fk ∈ fks, ∀ c ∈ fk.columns, ',' ∉ c.data) :
    (generateDDL tables fks).1.length = tables.length ∧
    (generateDDL tables fks).2.length =
      ((fks.map (fun fk => (fk.parentTable, fk.columns))).dedup).length ∧
    (generateDDL tables fks).2 = (uniqueIndexFKs fks).map indexStmt := by
  refine ⟨?_, ?_, rfl⟩
  · simp [generateDDL, sortedNames, (List.perm_insertionSort _ _).length_eq]
  · have h1 : (generateDDL tables fks).2.length = (dedupFKsAux [] fks).length := by
      simp [generateDDL, uniqueIndexFKs, (List.perm_insertionSort _ _).length_eq]
    rw [h1, dedupFKsAux_length]
    simp only [List.toFinset_nil, Finset.sdiff_empty]
    rw [← List.card_toFinset]
    have hmm : fks.map parentKeyOf =
        (fks.map (fun fk => (fk.parentTable, fk.columns))).map
          (fun p => (p.1, joinStr "," p.2)) := by
      rw [List.map_map]
      exact List.map_congr_left (fun fk _ => rfl)
    rw [hmm, toFinset_map]
    apply Finset.card_image_of_injOn
    intro p1 hp1 p2 hp2 heq
    simp only [Finset.coe_sort_coe, Finset.mem_coe, List.mem_toFinset, List.mem_map] at hp1 hp2
    obtain ⟨f1, hf1, hp1e⟩ := hp1
    obtain ⟨f2, hf2, hp2e⟩ := hp2
    subst hp1e; subst hp2e
    simp only [Prod.mk.injEq] at heq
    obtain ⟨he1, he2⟩ := heq
    exact Prod.ext he1 (joinStr_comma_inj _ _ (hne f1 hf1) (hne f2 hf2)
      (fun c hc => hcomma f1 hf1 c hc) (fun c hc => hcomma f2 hf2 c hc) he2)

/-- Witness for C6 (amended): two well-formed constraints referencing the
same parent key produce one index statement, and two schemas produce two
table statements. -/
theorem ddl_one_index_per_parent_key_witness :
    (generateDDL [⟨"A", [⟨"ID", "TEXT", false⟩]⟩, ⟨"B", [⟨"ID", "TEXT", false⟩]⟩]
        [⟨"B", ["ID"], "A"⟩, ⟨"C", ["ID"], "A"⟩]).1.length = 2 ∧
    (generateDDL [⟨"A", [⟨"ID", "TEXT", false⟩]⟩, ⟨"B", [⟨"ID", "TEXT", false⟩]⟩]
        [⟨"B", ["ID"], "A"⟩, ⟨"C", ["ID"], "A"⟩]).2.length = 1 := by
  have h := ddl_one_index_per_parent_key
    [⟨"A", [⟨"ID", "TEXT", false⟩]⟩, ⟨"B", [⟨"ID", "TEXT", false⟩]⟩]
    [⟨"B", ["ID"], "A"⟩, ⟨"C", ["ID"], "A"⟩] (by decide) (by decide)
  exact ⟨h.1.trans rfl, h.2.1.trans rfl⟩

theorem lookupSchema_perm (tables1 tables2 : List TableSchema) (n : String)
    (hperm : tables1.Perm tables2) (hnd : (tables1.map TableSchema.name).Nodup) :
    lookupSchema tables1 n = lookupSchema tables2 n := by
  cases h1 : lookupSchema tables1 n with
  | none =>
    rw [lookupSchema] at h1
    symm
    rw [lookupSchema, List.find?_eq_none]
    rw [List.find?_eq_none] at h1
    intro x hx
    exact h1 x (hperm.symm.subset hx)
  | some a =>
    rw [lookupSchema] at h1
    have hpa := List.find?_some h1
    have hma : a ∈ tables1 := List.mem_of_find?_eq_some h1
    have hsome : (List.find? (fun t => decide (t.name = n)) tables2).isSome = true :=
      List.find?_isSome.mpr ⟨a, hperm.subset hma, hpa⟩
    obtain ⟨b, hb⟩ := Option.isSome_iff_exists.mp hsome
    have hpb := List.find?_some hb
    have hmb : b ∈ tables1 := hperm.symm.subset (List.mem_of_find?_eq_some hb)
    have hab : a = b := by
      apply List.inj_on_of_nodup_map hnd hma hmb
      simp only [decide_eq_true_eq] at hpa hpb
      rw [hpa, hpb]
    rw [lookupSchema, hb, hab]

/-- C7. DDL synthesis is deterministic: it does not depend on the iteration
order of the schema map (any permutation of the schema list with distinct
table names yields identical statement lists, byte for byte), and the
table-creation statements are emitted in lexicographically sorted
table-name order. -/
theorem ddl_deterministic (tables1 tables2 : List TableSchema) (fks : List ForeignKey)
    (hperm : tables1.Perm tables2) (hnd : (tables1.map TableSchema.name).Nodup) :
    generateDDL tables1 fks = generateDDL tables2 fks ∧
    List.Sorted strLeRel (sortedNames tables1) ∧
    (generateDDL tables1 fks).1 = (sortedNames tables1).map (fun n =>
      match lookupSchema tables1 n with
      | some ts => tableStmt ts (fkMapFor fks n)
      | none => "") := by
  have hs : sortedNames tables1 = sortedNames tables2 := by
    apply List.eq_of_perm_of_sorted (r := strLeRel)
    · exact (List.perm_insertionSort _ _).trans
        ((hperm.map _).trans (List.perm_insertionSort _ _).symm)
    · exact List.sorted_insertionSort _ _
    · exact List.sorted_insertionSort _ _
  refine ⟨?_, List.sorted_insertionSort _ _, rfl⟩
  unfold generateDDL
  rw [hs]
  refine Prod.ext ?_ rfl
  simp only
  apply List.map_congr_left
  intro n _
  rw [lookupSchema_perm tables1 tables2 n hperm hnd]

/-- Witness for C7: two permutations of a two-schema set generate identical
DDL. -/
theorem ddl_deterministic_witness :
    generateDDL [⟨"B", [⟨"ID", "TEXT", false⟩]⟩, ⟨"A", [⟨"ID", "TEXT", true⟩]⟩]
        [⟨"B", ["ID"], "A"⟩] =
      generateDDL [⟨"A", [⟨"ID", "TEXT", true⟩]⟩, ⟨"B", [⟨"ID", "TEXT", false⟩]⟩]
        [⟨"B", ["ID"], "A"⟩] :=
  (ddl_deterministic _ _ _ (by decide) (by decide)).1

/-- A stored row: the storage-assigned rowid and the row's named column
values (the integrity-repair engine addresses rows only through rowids and
key-column values). -/
structure DBRow where
  rowid : ℕ
  vals : List (String × Value)
deriving DecidableEq

/-- Value of a named column in a row (a SQL column reference). -/
def colVal (r : DBRow) (c : String) : Option Value :=
  (r.vals.find? (fun p => p.1 = c)).map Prod.snd

/-- Key tuple of a row under the index columns (the GROUP BY / WHERE key of
deduplicateParents, src/nasr.go lines 124-156). -/
def keyOf (cols : List String) (r : DBRow) : List (Option Value) :=
  cols.map (colVal r)

/-- Rows of the table sharing the given key (the duplicate group). -/
def rowsWithKey (t : List DBRow) (cols : List String) (k : List (Option Value)) :
    List DBRow :=
  t.filter (fun r => keyOf cols r = k)

/-- Rowids of one key group in ascending order (the SELECT rowid ... ORDER
BY rowid query, src/nasr.go lines 154-156). -/
def sortedRowids (t : List DBRow) (cols : List String) (k : List (Option Value)) :
    List ℕ :=
  List.insertionSort (· ≤ ·) ((rowsWithKey t cols k).map DBRow.rowid)

/-- A key tuple with a present, non-NULL value in every column.  Only such
tuples can violate a SQLite unique index (NULLs there are pairwise distinct),
and only such tuples select any row through the repair's WHERE "col" = ?
equality (src/nasr.go lines 146-156: a scanned NULL never compares equal, so
the rowid query of a NULL-keyed group returns nothing and the group is
skipped by the len(rowids) < 2 check). -/
def keyNonNull (k : List (Option Value)) : Bool :=
  k.all (fun v => match v with
    | some Value.null => false
    | none => false
    | some _ => true)

/-- Keys whose group the repair actually processes: the GROUP BY ... HAVING
count(*) > 1 query (src/nasr.go lines 124-128) lists every duplicated key
(GROUP BY treats NULLs as equal), but a key containing NULL matches no row
under the subsequent WHERE "col" = ? equality, so its group falls through
the len(rowids) < 2 check (src/nasr.go lines 154-178) and contributes no
deletion. -/
def dupKeys (t : List DBRow) (cols : List String) : List (List (Option Value)) :=
  ((t.map (keyOf cols)).dedup).filter
    (fun k => keyNonNull k && decide (1 < (rowsWithKey t cols k).length))

/-- Rowids deleted by the repair pass: for each duplicated key, every rowid
after the first of the ascending list (src/nasr.go lines 179-191 delete
rowids[1:]). -/
def deletedRowids (t : List DBRow) (cols : List String) : List ℕ :=
  (dupKeys t cols).flatMap (fun k => (sortedRowids t cols k).tail)

/-- One deletion log line (the log.Printf in src/nasr.go lines 185-186):
table, kept rowid, deleted rowid, key values. -/
structure DeletionLog where
  table : String
  keptRowid : ℕ
  deletedRowid : ℕ
  key : List (Option Value)
deriving DecidableEq

/-- All deletion log lines of the repair pass for one index. -/
def dedupLog (tbl : String) (t : List DBRow) (cols : List String) : List DeletionLog :=
  (dupKeys t cols).flatMap (fun k =>
    ((sortedRowids t cols k).tail).map
      (fun rid => ⟨tbl, (sortedRowids t cols k).headD 0, rid, k⟩))

/-- Table state after the duplicate deletions (each DELETE ... WHERE rowid =
? removes the rows carrying a deleted rowid). -/
def dedupTable (t : List DBRow) (cols : List String) : List DBRow :=
  t.filter (fun r => r.rowid ∉ deletedRowids t cols)

/-- Success condition of CREATE UNIQUE INDEX on the key columns: no two rows
agree on a fully non-NULL key tuple.  SQLite treats NULLs in unique indexes
as pairwise distinct, so key tuples containing NULL never conflict and are
excluded before the distinctness check. -/
def uniqueOn (t : List DBRow) (cols : List String) : Prop :=
  ((t.map (keyOf cols)).filter keyNonNull).Nodup

instance (t : List DBRow) (cols : List String) : Decidable (uniqueOn t cols) :=
  List.nodupDecidable _

/-- One pass of deduplicateParents (src/nasr.go lines 104-201) for one index
statement, at the level of the (table, columns) pair the statement encodes:
try the index; on failure delete duplicates keeping the lowest rowid of each
group and retry exactly once; a second failure aborts with an error. -/
def dedupStep (tbl : String) (t : List DBRow) (cols : List String) :
    Except String (List DBRow × List DeletionLog) :=
  if uniqueOn t cols then Except.ok (t, [])
  else if uniqueOn (dedupTable t cols) cols then
    Except.ok (dedupTable t cols, dedupLog tbl t cols)
  else Except.error "create index after dedup"

theorem length_rowsWithKey_eq_countP (t : List DBRow) (cols : List String)
    (k : List (Option Value)) :
    (rowsWithKey t cols k).length = (t.map (keyOf cols)).countP (fun x => decide (x = k)) := by
  rw [rowsWithKey, ← List.countP_eq_length_filter, List.countP_map]
  rfl

theorem countP_le_one_of_nodup {α : Type} [DecidableEq α] (l : List α) (h : l.Nodup)
    (k : α) : l.countP (fun x => decide (x = k)) ≤ 1 := by
  induction l with
  | nil => simp
  | cons a as ih =>
    rw [List.nodup_cons] at h
    by_cases ha : a = k
    · subst ha
      rw [List.countP_cons_of_pos _ _ (by simp)]
      have h0 : as.countP (fun x => decide (x = a)) = 0 := by
        rw [List.countP_eq_zero]
        intro x hx
        simp only [decide_eq_true_eq]
        intro he
        exact h.1 (he ▸ hx)
      omega
    · rw [List.countP_cons_of_neg _ _ (by simpa using ha)]
      exact ih h.2

theorem nodup_of_countP_le_one {α : Type} [DecidableEq α] (l : List α)
    (h : ∀ k, l.countP (fun x => decide (x = k)) ≤ 1) : l.Nodup := by
  induction l with
  | nil => simp
  | cons a as ih =>
    rw [List.nodup_cons]
    constructor
    · intro hmem
      have h1 := h a
      rw [List.countP_cons_of_pos _ _ (by simp)] at h1
      have h0 : 0 < as.countP (fun x => decide (x = a)) :=
        List.countP_pos.mpr ⟨a, hmem, by simp⟩
      omega
    · apply ih
      intro k
      have h1 := h k
      rw [List.countP_cons] at h1
      omega

theorem countP_eq_filter {α : Type} [DecidableEq α] (p : α → Bool) (l : List α)
    (k : α) (hk : p k = true) :
    (l.filter p).countP (fun x => decide (x = k)) =
      l.countP (fun x => decide (x = k)) := by
  induction l with
  | nil => rfl
  | cons a as ih =>
    by_cases ha : p a = true
    · rw [List.filter_cons_of_pos ha, List.countP_cons, List.countP_cons, ih]
    · rw [List.filter_cons_of_neg (by simpa using ha), ih, List.countP_cons]
      have hne : (decide (a = k)) = false := by
        apply decide_eq_false
        intro he
        exact ha (he ▸ hk)
      simp [hne]

theorem count_keys_le_one (t : List DBRow) (cols : List String)
    (h : uniqueOn t cols) (k : List (Option Value)) (hknn : keyNonNull k = true) :
    (rowsWithKey t cols k).length ≤ 1 := by
  rw [length_rowsWithKey_eq_countP, ← countP_eq_filter keyNonNull _ k hknn]
  exact countP_le_one_of_nodup _ h k

theorem not_uniqueOn_of_dup (t : List DBRow) (cols : List String)
    (k : List (Option Value)) (hknn : keyNonNull k = true)
    (hdup : 1 < (rowsWithKey t cols k).length) :
    ¬ uniqueOn t cols :=
  fun h => absurd (count_keys_le_one t cols h k hknn) (by omega)

theorem rowid_inj (t : List DBRow) (hnd : (t.map DBRow.rowid).Nodup)
    {a b : DBRow} (ha : a ∈ t) (hb : b ∈ t) (h : a.rowid = b.rowid) : a = b :=
  List.inj_on_of_nodup_map hnd ha hb h

theorem rids_nodup (t : List DBRow) (cols : List String) (k : List (Option Value))
    (hnd : (t.map DBRow.rowid).Nodup) :
    ((rowsWithKey t cols k).map DBRow.rowid).Nodup :=
  ((List.filter_sublist t).map DBRow.rowid).nodup hnd

theorem sortedRowids_perm (t : List DBRow) (cols : List String) (k : List (Option Value)) :
    (sortedRowids t cols k).Perm ((rowsWithKey t cols k).map DBRow.rowid) :=
  List.perm_insertionSort _ _

theorem sortedRowids_sorted (t : List DBRow) (cols : List String) (k : List (Option Value)) :
    List.Sorted (· ≤ ·) (sortedRowids t cols k) :=
  List.sorted_insertionSort _ _

/-- Membership of a rowid of a key-k row in the deleted set reduces to the
tail of key k's own sorted rowid list. -/
theorem mem_deleted_iff (t : List DBRow) (cols : List String) (k : List (Option Value))
    (hnd : (t.map DBRow.rowid).Nodup) (r : DBRow) (hr : r ∈ t)
    (hk : keyOf cols r = k) :
    r.rowid ∈ deletedRowids t cols ↔
      (keyNonNull k = true ∧ 1 < (rowsWithKey t cols k).length ∧
        r.rowid ∈ (sortedRowids t cols k).tail) := by
  constructor
  · intro h
    rw [deletedRowids, List.mem_bind] at h
    obtain ⟨k2, hk2, htail⟩ := h
    have hmem2 : r.rowid ∈ sortedRowids t cols k2 :=
      (List.tail_sublist _).subset htail
    have hmem3 : r.rowid ∈ (rowsWithKey t cols k2).map DBRow.rowid :=
      (sortedRowids_perm t cols k2).subset hmem2
    obtain ⟨r2, hr2, hre⟩ := List.mem_map.mp hmem3
    have hr2t : r2 ∈ t := (List.mem_filter.mp hr2).1
    have hr2k : keyOf cols r2 = k2 := by
      have := (List.mem_filter.mp hr2).2
      simpa using this
    have : r2 = r := rowid_inj t hnd hr2t hr hre
    subst this
    rw [hr2k] at hk
    subst hk
    rw [dupKeys, List.mem_filter] at hk2
    have hok := hk2.2
    rw [Bool.and_eq_true] at hok
    exact ⟨hok.1, by simpa using hok.2, htail⟩
  · intro ⟨hknn, hlen, htail⟩
    rw [deletedRowids, List.mem_bind]
    refine ⟨k, ?_, htail⟩
    rw [dupKeys, List.mem_filter]
    constructor
    · rw [List.mem_dedup]
      exact List.mem_map.mpr ⟨r, hr, hk⟩
    · rw [Bool.and_eq_true]
      exact ⟨hknn, by simpa using hlen⟩

theorem rowsWithKey_dedupTable (t : List DBRow) (cols : List String)
    (k : List (Option Value)) :
    rowsWithKey (dedupTable t cols) cols k =
      (rowsWithKey t cols k).filter
        (fun r => decide (r.rowid ∉ deletedRowids t cols)) := by
  rw [rowsWithKey, dedupTable, List.filter_filter, rowsWithKey, List.filter_filter]
  apply List.filter_congr
  intro r _
  rw [Bool.and_comm]

theorem survivors_spec (t : List DBRow) (cols : List String) (k : List (Option Value))
    (hnd : (t.map DBRow.rowid).Nodup) (hknn : keyNonNull k = true)
    (hdup : 1 < (rowsWithKey t cols k).length) :
    (rowsWithKey (dedupTable t cols) cols k).length = 1 ∧
    ∀ r ∈ rowsWithKey (dedupTable t cols) cols k,
      r ∈ rowsWithKey t cols k ∧ r.rowid = (sortedRowids t cols k).headD 0 ∧
      (∀ r2 ∈ rowsWithKey t cols k, r.rowid ≤ r2.rowid) := by
  have hperm := sortedRowids_perm t cols k
  have hsorted := sortedRowids_sorted t cols k
  have hnodS : (sortedRowids t cols k).Nodup :=
    hperm.nodup_iff.mpr (rids_nodup t cols k hnd)
  have hlen : (sortedRowids t cols k).length = (rowsWithKey t cols k).length := by
    rw [hperm.length_eq, List.length_map]
  cases hsrt : sortedRowids t cols k with
  | nil => rw [hsrt] at hlen; simp at hlen; omega
  | cons m tl =>
    rw [hsrt] at hperm hsorted hnodS
    have hm_min : ∀ x ∈ tl, m ≤ x := (List.sorted_cons.mp hsorted).1
    have hm_notin : m ∉ tl := (List.nodup_cons.mp hnodS).1
    have hmem_srt : ∀ r ∈ rowsWithKey t cols k, r.rowid = m ∨ r.rowid ∈ tl := by
      intro r hr
      have : r.rowid ∈ (rowsWithKey t cols k).map DBRow.rowid :=
        List.mem_map.mpr ⟨r, hr, rfl⟩
      have := hperm.symm.subset this
      simpa using this
    have hdel_iff : ∀ r ∈ rowsWithKey t cols k,
        (r.rowid ∉ deletedRowids t cols ↔ r.rowid = m) := by
      intro r hr
      have hrt : r ∈ t := (List.mem_filter.mp hr).1
      have hrk : keyOf cols r = k := by
        have := (List.mem_filter.mp hr).2; simpa using this
      have hiff := mem_deleted_iff t cols k hnd r hrt hrk
      rw [hsrt] at hiff
      constructor
      · intro hnd2
        rcases hmem_srt r hr with h | h
        · exact h
        · exact absurd (hiff.mpr ⟨hknn, hdup, h⟩) hnd2
      · intro heq hdel
        have := (hiff.mp hdel).2.2
        rw [heq] at this
        exact hm_notin this
    have hfeq : (rowsWithKey t cols k).filter
        (fun r => decide (r.rowid ∉ deletedRowids t cols)) =
        (rowsWithKey t cols k).filter (fun r => decide (r.rowid = m)) := by
      apply List.filter_congr
      intro r hr
      simp only [decide_eq_decide]
      exact hdel_iff r hr
    have hcount : ((rowsWithKey t cols k).filter (fun r => decide (r.rowid = m))).length = 1 := by
      rw [← List.countP_eq_length_filter]
      have hc1 : List.countP (fun r : DBRow => decide (r.rowid = m)) (rowsWithKey t cols k) =
          List.countP (fun x => decide (x = m)) ((rowsWithKey t cols k).map DBRow.rowid) := by
        rw [List.countP_map]; rfl
      rw [hc1]
      have hle := countP_le_one_of_nodup _ (rids_nodup t cols k hnd) m
      have hmem : m ∈ (rowsWithKey t cols k).map DBRow.rowid :=
        hperm.subset (List.mem_cons_self m tl)
      have hpos : 0 < List.countP (fun x => decide (x = m))
          ((rowsWithKey t cols k).map DBRow.rowid) :=
        List.countP_pos.mpr ⟨m, hmem, by simp⟩
      omega
    refine ⟨?_, ?_⟩
    · rw [rowsWithKey_dedupTable, hfeq, hcount]
    · intro r hr
      rw [rowsWithKey_dedupTable, hfeq] at hr
      have hr1 := (List.mem_filter.mp hr).1
      have hr2 : r.rowid = m := by
        have := (List.mem_filter.mp hr).2; simpa using this
      refine ⟨hr1, ?_, ?_⟩
      · simpa using hr2
      · intro r2 hr2m
        rcases hmem_srt r2 hr2m with h | h
        · rw [hr2, h]
        · rw [hr2]; exact hm_min _ h

theorem uniqueOn_dedupTable (t : List DBRow) (cols : List String)
    (hnd : (t.map DBRow.rowid).Nodup) : uniqueOn (dedupTable t cols) cols := by
  apply nodup_of_countP_le_one
  intro k
  by_cases hknn : keyNonNull k = true
  · rw [countP_eq_filter keyNonNull _ k hknn, ← length_rowsWithKey_eq_countP]
    by_cases h : 1 < (rowsWithKey t cols k).length
    · exact le_of_eq (survivors_spec t cols k hnd hknn h).1
    · have hle : (rowsWithKey (dedupTable t cols) cols k).length ≤
          (rowsWithKey t cols k).length := by
        rw [rowsWithKey_dedupTable]
        exact (List.filter_sublist _).length_le
      omega
  · have h0 : (((dedupTable t cols).map (keyOf cols)).filter keyNonNull).countP
        (fun x => decide (x = k)) = 0 := by
      rw [List.countP_eq_zero]
      intro x hx
      simp only [decide_eq_true_eq]
      intro he
      have hx2 := (List.mem_filter.mp hx).2
      rw [he] at hx2
      exact hknn hx2
    omega

/-- C2. The duplicate-repair pass (deduplicateParents, src/nasr.go lines
104-201), for an index whose creation fails on duplicate keys — under SQLite
unique-index semantics a failure needs a duplicated key tuple whose values
are all present and non-NULL, since NULLs are pairwise distinct there; such
a group also makes the modelled index creation fail.  Then: in each group of
rows sharing an equal (fully non-NULL) key tuple with more than one member,
every row except the lowest-rowid one is deleted (exactly one row with that
key remains and it carries the lowest rowid), each deletion is logged with
the table, kept rowid, deleted rowid and key, index creation is retried
exactly once and succeeds on the repaired table, and a failing retry
surfaces as a hard error. -/
theorem dedup_repair (tbl : String) (t : List DBRow) (cols : List String)
    (k : List (Option Value))
    (hnd : (t.map DBRow.rowid).Nodup)
    (hknn : keyNonNull k = true)
    (hdup : 1 < (rowsWithKey t cols k).length) :
    ¬ uniqueOn t cols ∧
    (rowsWithKey (dedupTable t cols) cols k).length = 1 ∧
    (∀ r ∈ rowsWithKey (dedupTable t cols) cols k,
      r ∈ rowsWithKey t cols k ∧ r.rowid = (sortedRowids t cols k).headD 0 ∧
      (∀ r2 ∈ rowsWithKey t cols k, r.rowid ≤ r2.rowid)) ∧
    (∀ r2 ∈ rowsWithKey t cols k, r2.rowid ≠ (sortedRowids t cols k).headD 0 →
      (⟨tbl, (sortedRowids t cols k).headD 0, r2.rowid, k⟩ : DeletionLog) ∈
        dedupLog tbl t cols) ∧
    dedupStep tbl t cols = Except.ok (dedupTable t cols, dedupLog tbl t cols) ∧
    (∀ t2 : List DBRow, ¬ uniqueOn t2 cols → ¬ uniqueOn (dedupTable t2 cols) cols →
      dedupStep tbl t2 cols = Except.error "create index after dedup") := by
  have hs := survivors_spec t cols k hnd hknn hdup
  refine ⟨not_uniqueOn_of_dup t cols k hknn hdup, hs.1, hs.2, ?_, ?_, ?_⟩
  · intro r2 hr2 hne
    have hlen : (sortedRowids t cols k).length = (rowsWithKey t cols k).length := by
      rw [(sortedRowids_perm t cols k).length_eq, List.length_map]
    cases hsrt : sortedRowids t cols k with
    | nil => rw [hsrt] at hlen; simp at hlen; exfalso; omega
    | cons m tl =>
      have hmem_srt : r2.rowid ∈ m :: tl := by
        have h1 : r2.rowid ∈ (rowsWithKey t cols k).map DBRow.rowid :=
          List.mem_map.mpr ⟨r2, hr2, rfl⟩
        have := (sortedRowids_perm t cols k).symm.subset h1
        rwa [hsrt] at this
      have htl : r2.rowid ∈ tl := by
        rcases List.mem_cons.mp hmem_srt with h | h
        · exact absurd (by rw [h, hsrt]; rfl) hne
        · exact h
      rw [dedupLog, List.mem_bind]
      refine ⟨k, ?_, ?_⟩
      · rw [dupKeys, List.mem_filter]
        have hrt : r2 ∈ t := (List.mem_filter.mp hr2).1
        have hrk : keyOf cols r2 = k := by
          have := (List.mem_filter.mp hr2).2; simpa using this
        refine ⟨List.mem_dedup.mpr (List.mem_map.mpr ⟨r2, hrt, hrk⟩), ?_⟩
        rw [Bool.and_eq_true]
        exact ⟨hknn, by simpa using hdup⟩
      · apply List.mem_map.mpr
        exact ⟨r2.rowid, by rw [hsrt]; exact htl, by rw [hsrt]⟩
  · rw [dedupStep, if_neg (not_uniqueOn_of_dup t cols k hknn hdup),
      if_pos (uniqueOn_dedupTable t cols hnd)]
  · intro t2 h1 h2
    rw [dedupStep, if_neg h1, if_neg h2]

/-- Witness for C2 at the example of the spec: two rows with key
(x=1, y=2) at rowids 5 and 9; after repair exactly the rowid-5 row remains
and the deletion of rowid 9 is logged with kept rowid 5. -/
theorem dedup_repair_witness :
    dedupStep "T" [⟨5, [("x", Value.str "1"), ("y", Value.str "2")]⟩,
        ⟨9, [("x", Value.str "1"), ("y", Value.str "2")]⟩] ["x", "y"] =
      Except.ok ([⟨5, [("x", Value.str "1"), ("y", Value.str "2")]⟩],
        [⟨"T", 5, 9, [some (Value.str "1"), some (Value.str "2")]⟩]) := by
  have h := dedup_repair "T"
    [⟨5, [("x", Value.str "1"), ("y", Value.str "2")]⟩,
     ⟨9, [("x", Value.str "1"), ("y", Value.str "2")]⟩] ["x", "y"]
    [some (Value.str "1"), some (Value.str "2")] (by decide) (by decide) (by decide)
  exact h.2.2.2.2.1.trans (by rfl)

/-- Sanity check of the NULL semantics: two rows whose whole key is NULL do
not make the unique index fail (SQLite treats index NULLs as pairwise
distinct), so the pass deletes nothing and logs nothing. -/
theorem dedupStep_null_noop :
    dedupStep "T" [⟨1, [("x", Value.null)]⟩, ⟨2, [("x", Value.null)]⟩] ["x"] =
      Except.ok ([⟨1, [("x", Value.null)]⟩, ⟨2, [("x", Value.null)]⟩], []) := by
  rfl

/-- A database state: an association of table name to rows (the SQLite
database the repair engine mutates, restricted to what the engine reads:
rowids and key-column values). -/
abbrev DB := List (String × List DBRow)

/-- Rows of a named table. -/
def dbTable (db : DB) (n : String) : List DBRow :=
  ((db.find? (fun p => p.1 = n)).map Prod.snd).getD []

/-- DELETE FROM table WHERE rowid = rid. -/
def dbDelete (db : DB) (n : String) (rid : ℕ) : DB :=
  db.map (fun p => if p.1 = n then (p.1, p.2.filter (fun r => r.rowid ≠ rid)) else p)

/-- Whether a child row violates one constraint: its key tuple has no NULL
component and no parent row matches it exactly (SQLite MATCH SIMPLE
semantics: a NULL in any key column exempts the row). -/
def violatesFK (db : DB) (fk : ForeignKey) (r : DBRow) : Prop :=
  (∀ v ∈ keyOf fk.columns r, v ≠ some Value.null) ∧
  ¬ ∃ p ∈ dbTable db fk.parentTable, keyOf fk.columns p = keyOf fk.columns r

instance (db : DB) (fk : ForeignKey) (r : DBRow) : Decidable (violatesFK db fk r) := by
  unfold violatesFK
  exact inferInstance

/-- One violation line of PRAGMA foreign_key_check: the child table, the
rowid of the violating row, and the referenced parent table. -/
structure Violation where
  table : String
  rowid : ℕ
  parent : String
deriving DecidableEq

/-- Model of PRAGMA foreign_key_check over the declared constraints: one
line per violating child row per constraint. -/
def fkCheck (db : DB) (fks : List ForeignKey) : List Violation :=
  fks.flatMap (fun fk =>
    ((dbTable db fk.childTable).filter (fun r => decide (violatesFK db fk r))).map
      (fun r => ⟨fk.childTable, r.rowid, fk.parentTable⟩))

/-- deleteOrphans (src/nasr.go lines 224-259): collect all violations once,
then delete each violating row by (table, rowid). -/
def deleteOrphans (db : DB) (fks : List ForeignKey) : DB :=
  (fkCheck db fks).foldl (fun acc v => dbDelete acc v.table v.rowid) db

/-- The final phase of Extract (src/nasr.go lines 75-96): run the orphan
pass, then re-run the constraint check; any remaining violation is a hard
error carrying the violation count, otherwise the run succeeds. -/
def finalCheck (db : DB) (fks : List ForeignKey) : Except ℕ DB :=
  let db2 := deleteOrphans db fks
  if 0 < (fkCheck db2 fks).length then Except.error (fkCheck db2 fks).length
  else Except.ok db2

theorem dbTable_cons (p : String × List DBRow) (rest : DB) (n2 : String) :
    dbTable (p :: rest) n2 = if p.1 = n2 then p.2 else dbTable rest n2 := by
  by_cases h : p.1 = n2
  · rw [if_pos h, dbTable, List.find?_cons_of_pos _ (by simpa using h)]
    rfl
  · rw [if_neg h, dbTable, List.find?_cons_of_neg _ (by simpa using h)]
    rfl

theorem dbTable_dbDelete (db : DB) (n n2 : String) (rid : ℕ) :
    dbTable (dbDelete db n rid) n2 =
      if n2 = n then (dbTable db n2).filter (fun r => r.rowid ≠ rid)
      else dbTable db n2 := by
  induction db with
  | nil => by_cases h : n2 = n <;> simp [dbTable, dbDelete, h]
  | cons p rest ih =>
    rw [show dbDelete (p :: rest) n rid =
        (if p.1 = n then (p.1, p.2.filter (fun r => r.rowid ≠ rid)) else p) ::
          dbDelete rest n rid from rfl]
    by_cases hp : p.1 = n
    · rw [if_pos hp]
      by_cases h2 : p.1 = n2
      · have hnn : n2 = n := h2 ▸ hp
        rw [dbTable_cons, if_pos h2, if_pos hnn, dbTable_cons, if_pos h2]
      · have hnn : n2 ≠ n := fun hc => h2 (hp.trans hc.symm)
        rw [dbTable_cons]
        simp only [if_neg h2]
        rw [ih, if_neg hnn, if_neg hnn, dbTable_cons, if_neg h2]
    · rw [if_neg hp]
      by_cases h2 : p.1 = n2
      · have hnn : n2 ≠ n := fun hc => hp (h2.symm ▸ hc : p.1 = n)
        rw [dbTable_cons, if_pos h2, if_neg hnn, dbTable_cons, if_pos h2]
      · rw [dbTable_cons, if_neg h2, ih, dbTable_cons, if_neg h2]

theorem mem_dbTable_dbDelete (db : DB) (n n2 : String) (rid : ℕ) (r : DBRow)
    (h : r ∈ dbTable (dbDelete db n rid) n2) : r ∈ dbTable db n2 := by
  rw [dbTable_dbDelete] at h
  by_cases h2 : n2 = n
  · rw [if_pos h2] at h
    exact (List.mem_filter.mp h).1
  · rwa [if_neg h2] at h

theorem mem_foldl_delete (vs : List Violation) :
    ∀ (acc : DB) (n2 : String) (r : DBRow),
      r ∈ dbTable (vs.foldl (fun a v => dbDelete a v.table v.rowid) acc) n2 →
      r ∈ dbTable acc n2 := by
  induction vs with
  | nil => intro acc n2 r h; exact h
  | cons v rest ih =>
    intro acc n2 r h
    exact mem_dbTable_dbDelete acc v.table n2 v.rowid r (ih _ n2 r h)

theorem foldl_delete_kills (vs : List Violation) :
    ∀ (acc : DB) (v : Violation), v ∈ vs → ∀ r : DBRow, r.rowid = v.rowid →
      r ∉ dbTable (vs.foldl (fun a v => dbDelete a v.table v.rowid) acc) v.table := by
  induction vs with
  | nil => intro acc v hv; simp at hv
  | cons v0 rest ih =>
    intro acc v hv r hrid hmem
    rcases List.mem_cons.mp hv with h | h
    · subst h
      have h1 : r ∈ dbTable (dbDelete acc v.table v.rowid) v.table :=
        mem_foldl_delete rest _ _ r hmem
      rw [dbTable_dbDelete, if_pos rfl] at h1
      have := (List.mem_filter.mp h1).2
      rw [hrid] at this
      simp at this
    · exact ih (dbDelete acc v0.table v0.rowid) v h r hrid hmem

/-- C3. The final phase of Extract: the orphan pass deletes every child row
that violates a declared constraint in the pre-pass state; afterwards the
constraint check is re-run, any remaining violation aborts the run with a
hard error carrying the violation count, and a successful run is exactly one
whose final check reports zero violations. -/
theorem orphan_final_check (db : DB) (fks : List ForeignKey) :
    (∀ db2, finalCheck db fks = Except.ok db2 →
      db2 = deleteOrphans db fks ∧ (fkCheck db2 fks).length = 0) ∧
    (∀ n, finalCheck db fks = Except.error n →
      n = (fkCheck (deleteOrphans db fks) fks).length ∧ 0 < n) ∧
    (∀ fk ∈ fks, ∀ r ∈ dbTable db fk.childTable, violatesFK db fk r →
      r ∉ dbTable (deleteOrphans db fks) fk.childTable) := by
  refine ⟨?_, ?_, ?_⟩
  · intro db2 h
    rw [finalCheck] at h
    by_cases hn : 0 < (fkCheck (deleteOrphans db fks) fks).length
    · rw [if_pos hn] at h; exact absurd h (by simp)
    · rw [if_neg hn] at h
      have hd : db2 = deleteOrphans db fks := by
        have := h; simp at this; exact this.symm
      exact ⟨hd, by rw [hd]; omega⟩
  · intro n h
    rw [finalCheck] at h
    by_cases hn : 0 < (fkCheck (deleteOrphans db fks) fks).length
    · rw [if_pos hn] at h
      simp at h
      exact ⟨h.symm, h ▸ hn⟩
    · rw [if_neg hn] at h; exact absurd h (by simp)
  · intro fk hfk r hr hviol
    have hv : (⟨fk.childTable, r.rowid, fk.parentTable⟩ : Violation) ∈ fkCheck db fks := by
      rw [fkCheck, List.mem_bind]
      refine ⟨fk, hfk, ?_⟩
      apply List.mem_map.mpr
      exact ⟨r, List.mem_filter.mpr ⟨hr, by simpa using hviol⟩, rfl⟩
    exact foldl_delete_kills (fkCheck db fks) db _ hv r rfl

/-- Witness for C3: a child row whose key "b" has no parent is gone after
the orphan pass, and the final check reports zero violations (the run
succeeds). -/
theorem orphan_final_check_witness :
    (fkCheck (deleteOrphans
        [("PA", [⟨1, [("id", Value.str "a")]⟩]),
         ("CH", [⟨1, [("id", Value.str "a")]⟩, ⟨2, [("id", Value.str "b")]⟩])]
        [⟨"CH", ["id"], "PA"⟩])
      [⟨"CH", ["id"], "PA"⟩]).length = 0 ∧
    (⟨2, [("id", Value.str "b")]⟩ : DBRow) ∉ dbTable (deleteOrphans
        [("PA", [⟨1, [("id", Value.str "a")]⟩]),
         ("CH", [⟨1, [("id", Value.str "a")]⟩, ⟨2, [("id", Value.str "b")]⟩])]
        [⟨"CH", ["id"], "PA"⟩]) "CH" := by
  have h := orphan_final_check
    [("PA", [⟨1, [("id", Value.str "a")]⟩]),
     ("CH", [⟨1, [("id", Value.str "a")]⟩, ⟨2, [("id", Value.str "b")]⟩])]
    [⟨"CH", ["id"], "PA"⟩]
  refine ⟨(h.1 _ rfl).2, ?_⟩
  apply h.2.2 ⟨"CH", ["id"], "PA"⟩ (by simp) ⟨2, [("id", Value.str "b")]⟩ (by decide)
  constructor
  · decide
  · decide

/-- The whitespace class of the regular-expression escape backslash-s in Go
regexp: tab, newline, form feed, carriage return, space. -/
def isWS (c : Char) : Bool :=
  c = '\t' || c = '\n' || c = '\x0c' || c = '\r' || c = ' '

/-- Final step of a uniqueIndexRe match: the literal close paren after the
column list. -/
def tryCloseParen (tbl cls : List Char) : List Char → Option (List Char × List Char)
  | ')' :: _ => some (tbl, cls)
  | _ => none

/-- Open paren and the nonempty close-paren-free column list. -/
def tryParen (tbl : List Char) : List Char → Option (List Char × List Char)
  | '(' :: r6 =>
    if r6.takeWhile (fun x => x ≠ ')') = [] then none
    else tryCloseParen tbl (r6.takeWhile (fun x => x ≠ ')'))
      (r6.dropWhile (fun x => x ≠ ')'))
  | _ => none

/-- Closing quote of the table name, then mandatory whitespace. -/
def tryCloseTbl (tbl : List Char) : List Char → Option (List Char × List Char)
  | '"' :: r4 => if r4.takeWhile isWS = [] then none else tryParen tbl (r4.dropWhile isWS)
  | _ => none

/-- Opening quote and the nonempty quote-free table name. -/
def tryQuoteTbl : List Char → Option (List Char × List Char)
  | '"' :: r2 =>
    if r2.takeWhile (fun x => x ≠ '"') = [] then none
    else tryCloseTbl (r2.takeWhile (fun x => x ≠ '"')) (r2.dropWhile (fun x => x ≠ '"'))
  | _ => none

/-- The tail of a uniqueIndexRe match attempt after the literal ON
(src/nasr.go line 203): one or more whitespace characters, a double-quoted
nonempty quote-free table name, one or more whitespace characters, and a
parenthesized nonempty close-paren-free column list.  The pattern is
deterministic: every repetition runs to the unique character that can follow
it. -/
def tryTail (rest : List Char) : Option (List Char × List Char) :=
  if rest.takeWhile isWS = [] then none else tryQuoteTbl (rest.dropWhile isWS)

/-- One match attempt of uniqueIndexRe anchored at the start of s. -/
def tryMatchAt (s : List Char) : Option (List Char × List Char) :=
  match s with
  | c1 :: c2 :: rest => if c1 = 'O' ∧ c2 = 'N' then tryTail rest else none
  | _ => none

/-- Leftmost match of uniqueIndexRe (FindStringSubmatch): try every start
position, left to right. -/
def findRe : List Char → Option (List Char × List Char)
  | [] => none
  | c :: rest =>
    match tryMatchAt (c :: rest) with
    | some m => some m
    | none => findRe rest

/-- Model of strings.Split on a comma. -/
def splitComma : List Char → List (List Char)
  | [] => [[]]
  | c :: rest =>
    if c = ',' then [] :: splitComma rest
    else
      match splitComma rest with
      | [] => [[c]]
      | h :: t => (c :: h) :: t

/-- Model of strings.Trim with a quote cutset: remove every leading and
trailing double-quote character. -/
def trimQuotes (s : List Char) : List Char :=
  ((s.dropWhile (fun c => c = '"')).reverse.dropWhile (fun c => c = '"')).reverse

/-- Model of strings.TrimSpace on a character list. -/
def trimSpaceL (s : List Char) : List Char :=
  ((s.dropWhile isSpaceChar).reverse.dropWhile isSpaceChar).reverse

/-- parseUniqueIndex (src/nasr.go lines 207-220): extract the table and the
column names from a CREATE UNIQUE INDEX statement by regex match, comma
split, and trimming; none models the parse error. -/
def parseUniqueIndex (stmt : String) : Option (String × List String) :=
  match findRe stmt.data with
  | none => none
  | some (tbl, cls) =>
    some (⟨tbl⟩, (splitComma cls).map (fun c => ⟨trimQuotes (trimSpaceL c)⟩))

/-- Characters that survive %q quoting unchanged and cannot disturb the
index-statement grammar: printable ASCII other than space, double quote,
comma, parentheses and backslash. -/
def plainChar (c : Char) : Bool :=
  decide (33 ≤ c.toNat) && decide (c.toNat ≤ 126) &&
    c ≠ '"' && c ≠ ',' && c ≠ '(' && c ≠ ')' && c ≠ '\\'

/-- C10 fails as stated: a column name containing a backslash (but none of
the characters the claim excludes: double quote, comma, parentheses) is
escaped by the %q quoting in the generated statement, and parsing the
statement back recovers the escaped spelling with a doubled backslash, not
the original name. -/
theorem parse_roundtrip_counterexample :
    (∀ ch ∈ ("P" : String).data, ch ≠ '"' ∧ ch ≠ ',' ∧ ch ≠ '(' ∧ ch ≠ ')') ∧
    (∀ ch ∈ ("a\\b" : String).data, ch ≠ '"' ∧ ch ≠ ',' ∧ ch ≠ '(' ∧ ch ≠ ')') ∧
    parseUniqueIndex (indexStmt ⟨"C", ["a\\b"], "P"⟩) = some ("P", ["a\\\\b"]) ∧
    ("a\\\\b" : String) ≠ "a\\b" := by
  refine ⟨by decide, by decide, by rfl, by decide⟩

theorem takeWhile_append_of {p : Char → Bool} :
    ∀ (xs : List Char) (y : Char) (ys : List Char),
    (∀ x ∈ xs, p x = true) → p y = false →
    (xs ++ y :: ys).takeWhile p = xs ∧ (xs ++ y :: ys).dropWhile p = y :: ys := by
  intro xs
  induction xs with
  | nil =>
    intro y ys _ hy
    simp [List.takeWhile_cons, List.dropWhile_cons, hy]
  | cons x xs2 ih =>
    intro y ys hall hy
    have hx : p x = true := hall x (List.mem_cons_self x xs2)
    obtain ⟨h1, h2⟩ := ih y ys (fun a ha => hall a (List.mem_cons_of_mem _ ha)) hy
    simp [List.takeWhile_cons, List.dropWhile_cons, hx, h1, h2]

theorem dropWhile_eq_self_of {p : Char → Bool} (l : List Char)
    (h : ∀ c ∈ l, p c = false) : l.dropWhile p = l := by
  cases l with
  | nil => rfl
  | cons c r => simp [List.dropWhile_cons, h c (List.mem_cons_self c r)]

theorem quoteChar_plain (c : Char) (h : plainChar c = true) : quoteChar c = [c] := by
  simp only [plainChar, Bool.and_eq_true, decide_eq_true_eq] at h
  obtain ⟨⟨⟨⟨⟨⟨h1, h2⟩, hq⟩, hcm⟩, hpo⟩, hpc⟩, hbs⟩ := h
  rw [quoteChar, if_neg hq, if_neg hbs,
    if_neg (fun hc => absurd h1 (by rw [hc]; decide)),
    if_neg (fun hc => absurd h1 (by rw [hc]; decide)),
    if_neg (fun hc => absurd h1 (by rw [hc]; decide)),
    if_neg (by omega)]

theorem flatMap_quote_id : ∀ l : List Char, (∀ c ∈ l, quoteChar c = [c]) →
    l.flatMap quoteChar = l := by
  intro l
  induction l with
  | nil => intro _; rfl
  | cons c r ih =>
    intro h
    rw [List.flatMap_cons, h c (List.mem_cons_self c r),
      ih (fun a ha => h a (List.mem_cons_of_mem _ ha))]
    rfl

theorem goQuote_data_plain (s : String) (h : ∀ c ∈ s.data, plainChar c = true) :
    (goQuote s).data = '"' :: (s.data ++ ['"']) := by
  show '"' :: (s.data.flatMap quoteChar ++ ['"']) = _
  rw [flatMap_quote_id s.data (fun c hc => quoteChar_plain c (h c hc))]

theorem joinStr_data (sep : String) (s t : String) (rest : List String) :
    (joinStr sep (s :: t :: rest)).data =
      s.data ++ sep.data ++ (joinStr sep (t :: rest)).data := by
  show (s ++ sep ++ joinStr sep (t :: rest)).data = _
  rw [String.data_append, String.data_append]

theorem joinStr_forall (Q : Char → Prop) (sep : String) (hsep : ∀ c ∈ sep.data, Q c) :
    ∀ l : List String, (∀ s ∈ l, ∀ c ∈ s.data, Q c) →
      ∀ c ∈ (joinStr sep l).data, Q c := by
  intro l
  induction l with
  | nil =>
    intro _ c hc
    simp [joinStr, show ("" : String).data = [] from rfl] at hc
  | cons s rest ih =>
    intro h c hc
    cases rest with
    | nil =>
      exact h s (List.mem_cons_self s []) c (by simpa [joinStr] using hc)
    | cons t r2 =>
      rw [joinStr_data] at hc
      rcases List.mem_append.mp hc with hc2 | hc2
      · rcases List.mem_append.mp hc2 with hc3 | hc3
        · exact h s (List.mem_cons_self s _) c hc3
        · exact hsep c hc3
      · exact ih (fun a ha => h a (List.mem_cons_of_mem _ ha)) c hc2

theorem plain_not_ws (c : Char) (h : plainChar c = true) : isWS c = false := by
  cases hw : isWS c with
  | false => rfl
  | true =>
    exfalso
    simp only [isWS, Bool.or_eq_true, decide_eq_true_eq] at hw
    rcases hw with ((((hw | hw) | hw) | hw) | hw) <;>
      (subst hw; exact absurd h (by decide))

theorem tryMatchAt_cons (c1 c2 : Char) (r : List Char) :
    tryMatchAt (c1 :: c2 :: r) = if c1 = 'O' ∧ c2 = 'N' then tryTail r else none := rfl

theorem tryTail_none (u : List Char) (h : u.takeWhile isWS = []) : tryTail u = none := by
  rw [tryTail, if_pos h]

theorem findRe_cons_none (c : Char) (rest : List Char)
    (h : tryMatchAt (c :: rest) = none) : findRe (c :: rest) = findRe rest := by
  rw [findRe, h]

theorem findRe_no_O : ∀ sc : List Char, (∀ c ∈ sc, c ≠ 'O') →
    ∀ z : List Char, findRe (sc ++ z) = findRe z := by
  intro sc
  induction sc with
  | nil => intro _ z; rfl
  | cons c sc2 ih =>
    intro h z
    have hc : c ≠ 'O' := h c (List.mem_cons_self c sc2)
    have hnone : tryMatchAt (c :: (sc2 ++ z)) = none := by
      cases hcz : sc2 ++ z with
      | nil => rfl
      | cons d r => rw [tryMatchAt_cons, if_neg (fun hx => hc hx.1)]
    rw [List.cons_append, findRe_cons_none _ _ hnone,
      ih (fun a ha => h a (List.mem_cons_of_mem _ ha)) z]

theorem findRe_through_name : ∀ nm : List Char, (∀ c ∈ nm, plainChar c = true) →
    ∀ rt : List Char,
      findRe (nm ++ '"' :: ' ' :: 'O' :: 'N' :: rt) = findRe ('O' :: 'N' :: rt) := by
  intro nm
  induction nm with
  | nil =>
    intro _ rt
    rw [List.nil_append,
      findRe_cons_none '"' _ (by rw [tryMatchAt_cons, if_neg (by simp)]),
      findRe_cons_none ' ' _ (by rw [tryMatchAt_cons, if_neg (by simp)])]
  | cons c nm2 ih =>
    intro h rt
    have hc : plainChar c = true := h c (List.mem_cons_self c nm2)
    have hrest : ∀ x ∈ nm2, plainChar x = true :=
      fun x hx => h x (List.mem_cons_of_mem _ hx)
    have hnone : tryMatchAt (c :: (nm2 ++ '"' :: ' ' :: 'O' :: 'N' :: rt)) = none := by
      by_cases hcO : c = 'O'
      · cases nm2 with
        | nil =>
          rw [List.nil_append, tryMatchAt_cons, if_neg (by simp)]
        | cons d nm3 =>
          by_cases hdN : d = 'N'
          · rw [List.cons_append, tryMatchAt_cons, if_pos ⟨hcO, hdN⟩]
            apply tryTail_none
            cases nm3 with
            | nil => simp [List.takeWhile_cons, isWS]
            | cons e nm4 =>
              have he : plainChar e = true := hrest e (by simp)
              simp [List.takeWhile_cons, plain_not_ws e he]
          · rw [List.cons_append, tryMatchAt_cons, if_neg (fun hx => hdN hx.2)]
      · cases hcz : nm2 ++ '"' :: ' ' :: 'O' :: 'N' :: rt with
        | nil => rfl
        | cons d r => rw [tryMatchAt_cons, if_neg (fun hx => hcO hx.1)]
    rw [List.cons_append, findRe_cons_none _ _ hnone, ih hrest rt]

theorem plainChar_spec (c : Char) (h : plainChar c = true) :
    33 ≤ c.toNat ∧ c.toNat ≤ 126 ∧ c ≠ '"' ∧ c ≠ ',' ∧ c ≠ '(' ∧ c ≠ ')' ∧ c ≠ '\\' := by
  simp only [plainChar, Bool.and_eq_true, decide_eq_true_eq] at h
  obtain ⟨⟨⟨⟨⟨⟨h1, h2⟩, hq⟩, hcm⟩, hpo⟩, hpc⟩, hbs⟩ := h
  exact ⟨h1, h2, hq, hcm, hpo, hpc, hbs⟩

theorem splitComma_ne_nil : ∀ s : List Char, splitComma s ≠ [] := by
  intro s
  cases s with
  | nil => simp [splitComma]
  | cons c rest =>
    by_cases hc : c = ','
    · simp [splitComma, hc]
    · rw [splitComma, if_neg hc]
      cases h : splitComma rest with
      | nil => simp
      | cons a t => simp

theorem splitComma_no_comma : ∀ s : List Char, ',' ∉ s → splitComma s = [s] := by
  intro s
  induction s with
  | nil => intro _; rfl
  | cons c rest ih =>
    intro h
    have hc : c ≠ ',' := fun hx => h (hx ▸ List.mem_cons_self c rest)
    rw [splitComma, if_neg hc, ih (fun hx => h (List.mem_cons_of_mem _ hx))]

theorem splitComma_append : ∀ q z : List Char, ',' ∉ q →
    splitComma (q ++ ',' :: z) = q :: splitComma z := by
  intro q
  induction q with
  | nil =>
    intro z _
    rw [List.nil_append, splitComma, if_pos rfl]
  | cons c q2 ih =>
    intro z h
    have hc : c ≠ ',' := fun hx => h (hx ▸ List.mem_cons_self c q2)
    rw [List.cons_append, splitComma, if_neg hc,
      ih z (fun hx => h (List.mem_cons_of_mem _ hx))]

theorem trimSpaceL_cons_space (z : List Char) : trimSpaceL (' ' :: z) = trimSpaceL z := by
  rw [trimSpaceL, trimSpaceL, List.dropWhile_cons]
  simp [isSpaceChar]

theorem trimSpaceL_quoted (x : List Char) :
    trimSpaceL ('"' :: (x ++ ['"'])) = '"' :: (x ++ ['"']) := by
  rw [trimSpaceL]
  have h1 : List.dropWhile isSpaceChar ('"' :: (x ++ ['"'])) = '"' :: (x ++ ['"']) := by
    rw [List.dropWhile_cons]
    simp [isSpaceChar]
  rw [h1]
  have h2 : ('"' :: (x ++ ['"'])).reverse = '"' :: (x.reverse ++ ['"']) := by
    rw [List.reverse_cons, List.reverse_append]
    simp
  rw [h2]
  have h3 : List.dropWhile isSpaceChar ('"' :: (x.reverse ++ ['"'])) =
      '"' :: (x.reverse ++ ['"']) := by
    rw [List.dropWhile_cons]
    simp [isSpaceChar]
  rw [h3, List.reverse_cons, List.reverse_append]
  simp

theorem trimQuotes_quoted (x : List Char) (h : ∀ c ∈ x, c ≠ '"') :
    trimQuotes ('"' :: (x ++ ['"'])) = x := by
  rw [trimQuotes]
  have h1 : List.dropWhile (fun c => c = '"') ('"' :: (x ++ ['"'])) =
      List.dropWhile (fun c => c = '"') (x ++ ['"']) := by
    rw [List.dropWhile_cons]
    simp
  rw [h1]
  cases x with
  | nil => simp
  | cons e x2 =>
    have he : e ≠ '"' := h e (List.mem_cons_self e x2)
    have h2 : List.dropWhile (fun c => c = '"') ((e :: x2) ++ ['"']) = (e :: x2) ++ ['"'] := by
      rw [List.cons_append, List.dropWhile_cons]
      simp [he]
    rw [h2]
    have h3 : ((e :: x2) ++ ['"']).reverse = '"' :: (e :: x2).reverse := by
      rw [List.reverse_append]
      simp
    rw [h3]
    have h4 : List.dropWhile (fun c => c = '"') ('"' :: (e :: x2).reverse) =
        List.dropWhile (fun c => c = '"') (e :: x2).reverse := by
      rw [List.dropWhile_cons]
      simp
    rw [h4, dropWhile_eq_self_of _ (by
      intro c hc
      have : c ∈ e :: x2 := List.mem_reverse.mp hc
      simp [h c this])]
    simp

theorem trim_goQuote (c0 : String) (h : ∀ c ∈ c0.data, plainChar c = true) :
    (⟨trimQuotes (trimSpaceL (goQuote c0).data)⟩ : String) = c0 := by
  rw [goQuote_data_plain c0 h, trimSpaceL_quoted,
    trimQuotes_quoted _ (fun c hc => (plainChar_spec c (h c hc)).2.2.1)]

theorem splitComma_map_trim_space (z : List Char) :
    (splitComma (' ' :: z)).map
        (fun c => (⟨trimQuotes (trimSpaceL c)⟩ : String)) =
      (splitComma z).map (fun c => (⟨trimQuotes (trimSpaceL c)⟩ : String)) := by
  cases hz : splitComma z with
  | nil => exact absurd hz (splitComma_ne_nil z)
  | cons hd tl =>
    have hsp : splitComma (' ' :: z) = (' ' :: hd) :: tl := by
      rw [splitComma, if_neg (by decide), hz]
    rw [hsp]
    simp only [List.map_cons]
    rw [trimSpaceL_cons_space]

theorem no_comma_in_quoted (c0 : String) (h : ∀ c ∈ c0.data, plainChar c = true) :
    ',' ∉ (goQuote c0).data := by
  rw [goQuote_data_plain c0 h]
  intro hmem
  rcases List.mem_cons.mp hmem with h2 | h2
  · exact absurd h2.symm (by decide)
  · rcases List.mem_append.mp h2 with h3 | h3
    · exact absurd rfl (plainChar_spec _ (h _ h3)).2.2.2.1
    · simp at h3

theorem split_join_quoted : ∀ cols : List String, cols ≠ [] →
    (∀ col ∈ cols, ∀ c ∈ col.data, plainChar c = true) →
    (splitComma ((joinStr ", " (cols.map goQuote)).data)).map
      (fun c => (⟨trimQuotes (trimSpaceL c)⟩ : String)) = cols := by
  intro cols
  induction cols with
  | nil => intro h; exact absurd rfl h
  | cons c0 rest ih =>
    intro _ hplain
    have hp0 : ∀ c ∈ c0.data, plainChar c = true := hplain c0 (List.mem_cons_self c0 rest)
    have hnc : ',' ∉ (goQuote c0).data := no_comma_in_quoted c0 hp0
    cases rest with
    | nil =>
      show (splitComma (goQuote c0).data).map _ = [c0]
      rw [splitComma_no_comma _ hnc, List.map_cons, List.map_nil, trim_goQuote c0 hp0]
    | cons c1 rest2 =>
      have ih2 := ih (by simp) (fun col hc => hplain col (List.mem_cons_of_mem _ hc))
      simp only [List.map_cons] at ih2 ⊢
      rw [joinStr_data, show (", " : String).data = [',', ' '] from rfl]
      have hassoc : (goQuote c0).data ++ [',', ' '] ++
          (joinStr ", " (goQuote c1 :: rest2.map goQuote)).data =
          (goQuote c0).data ++
            (',' :: ' ' :: (joinStr ", " (goQuote c1 :: rest2.map goQuote)).data) := by
        simp
      rw [hassoc, splitComma_append _ _ hnc]
      simp only [List.map_cons]
      rw [trim_goQuote c0 hp0, splitComma_map_trim_space, ih2]

theorem tryQuoteTbl_cons (r2 : List Char) :
    tryQuoteTbl ('"' :: r2) =
      if r2.takeWhile (fun x => x ≠ '"') = [] then none
      else tryCloseTbl (r2.takeWhile (fun x => x ≠ '"'))
        (r2.dropWhile (fun x => x ≠ '"')) := rfl

theorem tryCloseTbl_cons (tbl : List Char) (r4 : List Char) :
    tryCloseTbl tbl ('"' :: r4) =
      if r4.takeWhile isWS = [] then none else tryParen tbl (r4.dropWhile isWS) := rfl

theorem tryParen_cons (tbl : List Char) (r6 : List Char) :
    tryParen tbl ('(' :: r6) =
      if r6.takeWhile (fun x => x ≠ ')') = [] then none
      else tryCloseParen tbl (r6.takeWhile (fun x => x ≠ ')'))
        (r6.dropWhile (fun x => x ≠ ')')) := rfl

theorem tryCloseParen_cons (tbl cls : List Char) (r : List Char) :
    tryCloseParen tbl cls (')' :: r) = some (tbl, cls) := rfl

theorem findRe_cons_some (c : Char) (rest : List Char) (m : List Char × List Char)
    (h : tryMatchAt (c :: rest) = some m) : findRe (c :: rest) = some m := by
  rw [findRe, h]

theorem tryTail_eval (P cls tail2 : List Char) (hPne : P ≠ [])
    (hPq : ∀ c ∈ P, c ≠ '"') (hclsNe : cls ≠ []) (hclsP : ∀ c ∈ cls, c ≠ ')') :
    tryTail (' ' :: '"' :: (P ++ ('"' :: ' ' :: '(' :: (cls ++ ')' :: tail2)))) =
      some (P, cls) := by
  obtain ⟨htake1, hdrop1⟩ := takeWhile_append_of (p := fun x => decide (x ≠ '"'))
    P '"' (' ' :: '(' :: (cls ++ ')' :: tail2))
    (fun x hx => by simp [hPq x hx]) (by simp)
  obtain ⟨htake2, hdrop2⟩ := takeWhile_append_of (p := fun x => decide (x ≠ ')'))
    cls ')' tail2 (fun x hx => by simp [hclsP x hx]) (by simp)
  have hA : List.takeWhile isWS
      (' ' :: '"' :: (P ++ ('"' :: ' ' :: '(' :: (cls ++ ')' :: tail2)))) = [' '] := by
    rw [List.takeWhile_cons, List.takeWhile_cons]
    simp [isWS]
  have hB : List.dropWhile isWS
      (' ' :: '"' :: (P ++ ('"' :: ' ' :: '(' :: (cls ++ ')' :: tail2)))) =
      '"' :: (P ++ ('"' :: ' ' :: '(' :: (cls ++ ')' :: tail2))) := by
    rw [List.dropWhile_cons, List.dropWhile_cons]
    simp [isWS]
  rw [tryTail, hA, if_neg (by simp), hB, tryQuoteTbl_cons, htake1, hdrop1,
    if_neg hPne, tryCloseTbl_cons]
  have hA2 : List.takeWhile isWS (' ' :: '(' :: (cls ++ ')' :: tail2)) = [' '] := by
    rw [List.takeWhile_cons, List.takeWhile_cons]
    simp [isWS]
  have hB2 : List.dropWhile isWS (' ' :: '(' :: (cls ++ ')' :: tail2)) =
      '(' :: (cls ++ ')' :: tail2) := by
    rw [List.dropWhile_cons, List.dropWhile_cons]
    simp [isWS]
  rw [hA2, if_neg (by simp), hB2, tryParen_cons, htake2, hdrop2, if_neg hclsNe,
    tryCloseParen_cons]

theorem join_quoted_ne_nil : ∀ cols : List String, cols ≠ [] →
    (joinStr ", " (cols.map goQuote)).data ≠ [] := by
  intro cols
  cases cols with
  | nil => intro h; exact absurd rfl h
  | cons c0 rest =>
    intro _
    cases rest with
    | nil =>
      show (goQuote c0).data ≠ []
      show '"' :: _ ≠ []
      simp
    | cons c1 rest2 =>
      simp only [List.map_cons]
      rw [joinStr_data]
      have : (goQuote c0).data = '"' :: (c0.data.flatMap quoteChar ++ ['"']) := rfl
      rw [this]
      simp

theorem no_cparen_in_quoted (s : String) (h : ∀ c ∈ s.data, plainChar c = true) :
    ∀ c ∈ (goQuote s).data, c ≠ ')' := by
  rw [goQuote_data_plain s h]
  intro c hc
  rcases List.mem_cons.mp hc with h2 | h2
  · rw [h2]; decide
  · rcases List.mem_append.mp h2 with h3 | h3
    · exact (plainChar_spec _ (h _ h3)).2.2.2.2.2.1
    · simp at h3
      rw [h3]; decide

/-- C10 (amended). For every constraint with at least one key column whose
parent-table and column names are nonempty strings of printable ASCII
characters other than space, double quote, comma, parentheses and backslash,
parsing the emitted unique-index statement back recovers exactly the
(parentTable, columns) pair, columns in order. -/
theorem parse_roundtrip (fk : ForeignKey)
    (hpne : fk.parentTable.data ≠ [])
    (hp : ∀ c ∈ fk.parentTable.data, plainChar c = true)
    (hcne : fk.columns ≠ [])
    (hcols : ∀ col ∈ fk.columns, ∀ c ∈ col.data, plainChar c = true) :
    parseUniqueIndex (indexStmt fk) = some (fk.parentTable, fk.columns) := by
  have hidx : ∀ c ∈ ("idx_" ++ fk.parentTable ++ "_" ++ joinStr "_" fk.columns).data,
      plainChar c = true := by
    simp only [String.data_append]
    intro c hc
    rcases List.mem_append.mp hc with hc1 | hc1
    · rcases List.mem_append.mp hc1 with hc2 | hc2
      · rcases List.mem_append.mp hc2 with hc3 | hc3
        · exact (by decide : ∀ c ∈ ("idx_" : String).data, plainChar c = true) c hc3
        · exact hp c hc3
      · exact (by decide : ∀ c ∈ ("_" : String).data, plainChar c = true) c hc2
    · exact joinStr_forall (fun c => plainChar c = true) "_" (by decide)
        fk.columns hcols c hc1
  have hclsP : ∀ c ∈ (joinStr ", " (fk.columns.map goQuote)).data, c ≠ ')' := by
    apply joinStr_forall (fun c => c ≠ ')') ", " (by decide)
    intro s hs c hc
    obtain ⟨col, hcol, rfl⟩ := List.mem_map.mp hs
    exact no_cparen_in_quoted col (hcols col hcol) c hc
  have hclsNe : (joinStr ", " (fk.columns.map goQuote)).data ≠ [] :=
    join_quoted_ne_nil fk.columns hcne
  have hq1 := goQuote_data_plain ("idx_" ++ fk.parentTable ++ "_" ++
    joinStr "_" fk.columns) hidx
  have hq2 := goQuote_data_plain fk.parentTable hp
  have hshape : (indexStmt fk).data =
      ("CREATE UNIQUE INDEX " : String).data ++ (['"'] ++
        ((("idx_" ++ fk.parentTable ++ "_" ++ joinStr "_" fk.columns)).data ++
          ('"' :: ' ' :: 'O' :: 'N' :: (' ' :: '"' :: (fk.parentTable.data ++
            ('"' :: ' ' :: '(' ::
              ((joinStr ", " (fk.columns.map goQuote)).data ++ ')' :: [';'])))))))
      := by
    rw [indexStmt]
    simp only [String.data_append, hq1, hq2,
      show (" ON " : String).data = [' ', 'O', 'N', ' '] from rfl,
      show (" (" : String).data = [' ', '('] from rfl,
      show (");" : String).data = [')', ';'] from rfl]
    simp [List.append_assoc]
  have htm : tryMatchAt ('O' :: 'N' :: (' ' :: '"' :: (fk.parentTable.data ++
      ('"' :: ' ' :: '(' ::
        ((joinStr ", " (fk.columns.map goQuote)).data ++ ')' :: [';']))))) =
      some (fk.parentTable.data, (joinStr ", " (fk.columns.map goQuote)).data) := by
    rw [tryMatchAt_cons, if_pos ⟨rfl, rfl⟩]
    exact tryTail_eval _ _ _ hpne
      (fun c hc => (plainChar_spec c (hp c hc)).2.2.1) hclsNe hclsP
  have hfind : findRe (indexStmt fk).data =
      some (fk.parentTable.data, (joinStr ", " (fk.columns.map goQuote)).data) := by
    rw [hshape, findRe_no_O _ (by decide) _, findRe_no_O ['"'] (by decide) _,
      findRe_through_name _ hidx _]
    exact findRe_cons_some _ _ _ htm
  rw [parseUniqueIndex, hfind]
  show some ((⟨fk.parentTable.data⟩ : String),
      (splitComma ((joinStr ", " (fk.columns.map goQuote)).data)).map
        (fun c => (⟨trimQuotes (trimSpaceL c)⟩ : String))) = _
  rw [split_join_quoted fk.columns hcne hcols]

/-- Witness for C10 (amended): the statement generated for a well-formed
constraint parses back to its (parentTable, columns) pair. -/
theorem parse_roundtrip_witness :
    parseUniqueIndex (indexStmt ⟨"APT_RWY", ["SITE_NO"], "APT_BASE"⟩) =
      some ("APT_BASE", ["SITE_NO"]) :=
  parse_roundtrip ⟨"APT_RWY", ["SITE_NO"], "APT_BASE"⟩ (by decide) (by decide)
    (by decide) (by decide)

/-- normalizeCR (src/unnamed/part_004 lines 118-135): replace each bare
carriage return (one not followed by a newline) with a newline; CRLF pairs
pass through unchanged. -/
def normCR : List Char → List Char
  | [] => []
  | '\r' :: '\n' :: rest => '\r' :: '\n' :: normCR rest
  | '\r' :: rest => '\n' :: normCR rest
  | c :: rest => c :: normCR rest

/-- One record of Go encoding/csv (default options) over the CRLF-normalized
stream, as a single state machine: mode false scans an unquoted field (cur
is the field collected so far, acc the completed fields; a quote inside a
non-empty unquoted field makes the field a bare-quote error when it
completes, and a quote at field start enters quoted mode), mode true scans
inside a quoted field (doubled quotes escape, a closing quote must be
followed by a comma, a line end or the end of input, and end of input inside
quotes is an error; CRLF inside a quoted field becomes a bare newline, as
readLine rewrites it).  Returns the record's fields and the unconsumed
remainder. -/
def csvRun : Bool → List Char → List Char → List String →
    Except Unit (List String × List Char)
  | false, [], cur, acc =>
    if '"' ∈ cur then Except.error () else Except.ok (acc ++ [⟨cur⟩], [])
  | false, ',' :: r, cur, acc =>
    if '"' ∈ cur then Except.error () else csvRun false r [] (acc ++ [⟨cur⟩])
  | false, '\n' :: r, cur, acc =>
    if '"' ∈ cur then Except.error () else Except.ok (acc ++ [⟨cur⟩], r)
  | false, '\r' :: '\n' :: r, cur, acc =>
    if '"' ∈ cur then Except.error () else Except.ok (acc ++ [⟨cur⟩], r)
  | false, '"' :: r, cur, acc =>
    if cur = [] then csvRun true r [] acc else csvRun false r (cur ++ ['"']) acc
  | false, c :: r, cur, acc => csvRun false r (cur ++ [c]) acc
  | true, [], _, _ => Except.error ()
  | true, '"' :: '"' :: r2, cur, acc => csvRun true r2 (cur ++ ['"']) acc
  | true, '"' :: ',' :: r2, cur, acc => csvRun false r2 [] (acc ++ [⟨cur⟩])
  | true, '"' :: '\n' :: r2, cur, acc => Except.ok (acc ++ [⟨cur⟩], r2)
  | true, '"' :: '\r' :: '\n' :: r2, cur, acc => Except.ok (acc ++ [⟨cur⟩], r2)
  | true, ['"'], cur, acc => Except.ok (acc ++ [⟨cur⟩], [])
  | true, '"' :: _ :: _, _, _ => Except.error ()
  | true, '\r' :: '\n' :: r, cur, acc => csvRun true r (cur ++ ['\n']) acc
  | true, c :: r, cur, acc => csvRun true r (cur ++ [c]) acc

/-- Leading blank lines are skipped by the record reader (Go csv Read skips
lines consisting solely of a newline). -/
def skipBlank : List Char → List Char
  | '\n' :: r => skipBlank r
  | '\r' :: '\n' :: r => skipBlank r
  | cs => cs

/-- All records of a stream; fuel bounds the recursion and any value above
the stream length is exempt from exhaustion.  End of input after blank lines
ends the stream; any record error aborts. -/
def readAllRecs : ℕ → List Char → Except Unit (List (List String))
  | 0, _ => Except.error ()
  | n + 1, cs =>
    if skipBlank cs = [] then Except.ok []
    else
      match csvRun false (skipBlank cs) [] [] with
      | Except.error _ => Except.error ()
      | Except.ok (rec, rest) => (readAllRecs n rest).map (fun rs => rec :: rs)

/-- parseSchemas restricted to one metadata stream (src/unnamed/part_004
lines 34-98): normalize bare CRs, read all csv records (a failing record or
an unreadable header fails the stream), discard the header record, and fold
the record loop over the rest.  Outcomes are compared as success/failure
plus the resulting schema list. -/
def parseStream (raw : List Char) : Except Unit (List TableSchema) :=
  let cs := normCR raw
  match readAllRecs (cs.length + 1) cs with
  | Except.error _ => Except.error ()
  | Except.ok [] => Except.error ()
  | Except.ok (_ :: recs) => Except.ok (recs.foldl processRecord [])

/-- C8 fails as stated: parseSchemas does not strip a byte-order mark, and
on the empty stream the outcomes differ — with a leading BOM the BOM becomes
the (discarded) header and parsing succeeds with no tables, while without it
the header read fails and parsing errors. -/
theorem bom_strip_counterexample :
    parseStream ['\uFEFF'] = Except.ok [] ∧ parseStream [] = Except.error () :=
  ⟨rfl, rfl⟩

theorem csvRun_false_generic (c : Char) (r cur : List Char) (acc : List String)
    (h1 : c ≠ ',') (h2 : c ≠ '\n') (h3 : c ≠ '\r') (h4 : c ≠ '"') :
    csvRun false (c :: r) cur acc = csvRun false r (cur ++ [c]) acc := by
  simp [csvRun, h1, h2, h3, h4]

theorem csvRun_false_cr (c2 : Char) (r cur : List Char) (acc : List String)
    (h : c2 ≠ '\n') :
    csvRun false ('\r' :: c2 :: r) cur acc = csvRun false (c2 :: r) (cur ++ ['\r']) acc := by
  simp [csvRun, h]

theorem csvRun_true_quote_other (d : Char) (r2 cur : List Char) (acc : List String)
    (h1 : d ≠ '"') (h2 : d ≠ ',') (h3 : d ≠ '\n') (h4 : d ≠ '\r') :
    csvRun true ('"' :: d :: r2) cur acc = Except.error () := by
  simp [csvRun, h1, h2, h3, h4]

theorem csvRun_true_quote_cr (e : Char) (r3 cur : List Char) (acc : List String)
    (h : e ≠ '\n') :
    csvRun true ('"' :: '\r' :: e :: r3) cur acc = Except.error () := by
  simp [csvRun, h]

theorem csvRun_true_cr (c2 : Char) (r cur : List Char) (acc : List String)
    (h : c2 ≠ '\n') :
    csvRun true ('\r' :: c2 :: r) cur acc = csvRun true (c2 :: r) (cur ++ ['\r']) acc := by
  simp [csvRun, h]

theorem csvRun_true_generic (c : Char) (r cur : List Char) (acc : List String)
    (h1 : c ≠ '"') (h2 : c ≠ '\r') :
    csvRun true (c :: r) cur acc = csvRun true r (cur ++ [c]) acc := by
  simp [csvRun, h1, h2]

theorem csvRun_false_catch (c : Char) (r cur : List Char) (acc : List String)
    (h1 : c ≠ ',') (h2 : c ≠ '\n') (h3 : ∀ r2, c = '\r' → r = '\n' :: r2 → False)
    (h4 : c ≠ '"') :
    csvRun false (c :: r) cur acc = csvRun false r (cur ++ [c]) acc := by
  by_cases hc : c = '\r'
  · subst hc
    cases r with
    | nil => rfl
    | cons d r2 =>
      by_cases hd : d = '\n'
      · exact (h3 r2 rfl (by rw [hd])).elim
      · exact csvRun_false_cr d r2 cur acc hd
  · exact csvRun_false_generic c r cur acc h1 h2 hc h4

theorem csvRun_true_catch (c : Char) (r cur : List Char) (acc : List String)
    (hq : c ≠ '"') (hcr : ∀ r2, c = '\r' → r = '\n' :: r2 → False) :
    csvRun true (c :: r) cur acc = csvRun true r (cur ++ [c]) acc := by
  by_cases hc : c = '\r'
  · subst hc
    cases r with
    | nil => rfl
    | cons d r2 =>
      by_cases hd : d = '\n'
      · exact (hcr r2 rfl (by rw [hd])).elim
      · exact csvRun_true_cr d r2 cur acc hd
  · exact csvRun_true_generic c r cur acc hq hc

theorem csvRun_true_quote_err (d : Char) (r2 cur : List Char) (acc : List String)
    (h1 : d ≠ '"') (h2 : d ≠ ',') (h3 : d ≠ '\n')
    (h4 : ∀ r3, d = '\r' → r2 = '\n' :: r3 → False) :
    csvRun true ('"' :: d :: r2) cur acc = Except.error () := by
  by_cases hd : d = '\r'
  · subst hd
    cases r2 with
    | nil => rfl
    | cons e r3 =>
      by_cases he : e = '\n'
      · exact (h4 r3 rfl (by rw [he])).elim
      · exact csvRun_true_quote_cr e r3 cur acc he
  · exact csvRun_true_quote_other d r2 cur acc h1 h2 h3 hd

theorem csvRun_rest (mode : Bool) (cs cur : List Char) (acc : List String) :
    ∀ (rec : List String) (rest : List Char),
      csvRun mode cs cur acc = Except.ok (rec, rest) →
      rest.length < cs.length ∨ rest = [] := by
  induction mode, cs, cur, acc using csvRun.induct with
  | case1 cur acc hq => intro rec rest h; simp [csvRun, hq] at h
  | case2 cur acc hq =>
    intro rec rest h
    simp only [csvRun, if_neg hq, Except.ok.injEq, Prod.mk.injEq] at h
    exact Or.inr h.2.symm
  | case3 r cur acc hq => intro rec rest h; simp [csvRun, hq] at h
  | case4 r cur acc hq ih =>
    intro rec rest h
    simp only [csvRun, if_neg hq] at h
    rcases ih rec rest h with hl | hn
    · left; simp only [List.length_cons]; omega
    · exact Or.inr hn
  | case5 r cur acc hq => intro rec rest h; simp [csvRun, hq] at h
  | case6 r cur acc hq =>
    intro rec rest h
    simp only [csvRun, if_neg hq, Except.ok.injEq, Prod.mk.injEq] at h
    left; rw [← h.2]; simp
  | case7 r cur acc hq => intro rec rest h; simp [csvRun, hq] at h
  | case8 r cur acc hq =>
    intro rec rest h
    simp only [csvRun, if_neg hq, Except.ok.injEq, Prod.mk.injEq] at h
    left; rw [← h.2]; simp only [List.length_cons]; omega
  | case9 r acc ih =>
    intro rec rest h
    simp only [csvRun, if_pos rfl] at h
    rcases ih rec rest h with hl | hn
    · left; simp only [List.length_cons]; omega
    · exact Or.inr hn
  | case10 r cur acc hcur ih =>
    intro rec rest h
    simp only [csvRun, if_neg hcur] at h
    rcases ih rec rest h with hl | hn
    · left; simp only [List.length_cons]; omega
    · exact Or.inr hn
  | case11 c r cur acc hc1 hc2 hc3 hc4 ih =>
    intro rec rest h
    rw [csvRun_false_catch c r cur acc hc1 hc2 hc3 hc4] at h
    rcases ih rec rest h with hl | hn
    · left; simp only [List.length_cons]; omega
    · exact Or.inr hn
  | case12 cur acc => intro rec rest h; simp [csvRun] at h
  | case13 r2 cur acc ih =>
    intro rec rest h
    simp only [csvRun] at h
    rcases ih rec rest h with hl | hn
    · left; simp only [List.length_cons]; omega
    · exact Or.inr hn
  | case14 r2 cur acc ih =>
    intro rec rest h
    simp only [csvRun] at h
    rcases ih rec rest h with hl | hn
    · left; simp only [List.length_cons]; omega
    · exact Or.inr hn
  | case15 r2 cur acc =>
    intro rec rest h
    simp only [csvRun, Except.ok.injEq, Prod.mk.injEq] at h
    left; rw [← h.2]; simp only [List.length_cons]; omega
  | case16 r2 cur acc =>
    intro rec rest h
    simp only [csvRun, Except.ok.injEq, Prod.mk.injEq] at h
    left; rw [← h.2]; simp only [List.length_cons]; omega
  | case17 cur acc =>
    intro rec rest h
    simp only [csvRun, Except.ok.injEq, Prod.mk.injEq] at h
    exact Or.inr h.2.symm
  | case18 d r2 cur acc hc1 hc2 hc3 hc4 =>
    intro rec rest h
    rw [csvRun_true_quote_err d r2 cur acc hc1 hc2 hc3 hc4] at h
    simp at h
  | case19 r cur acc ih =>
    intro rec rest h
    simp only [csvRun] at h
    rcases ih rec rest h with hl | hn
    · left; simp only [List.length_cons]; omega
    · exact Or.inr hn
  | case20 c r cur acc hc1 hc2 hc3 hc4 hc5 hc6 hc7 ih =>
    intro rec rest h
    have hq : c ≠ '"' := by
      intro hc
      cases r with
      | nil => exact hc5 hc rfl
      | cons x t => exact hc6 x t hc rfl
    rw [csvRun_true_catch c r cur acc hq hc7] at h
    rcases ih rec rest h with hl | hn
    · left; simp only [List.length_cons]; omega
    · exact Or.inr hn

def statusRest : Except Unit (List String × List Char) → Option (List Char)
  | Except.error _ => none
  | Except.ok (_, rest) => some rest

theorem quote_mem_append (l : List Char) (c : Char) :
    '"' ∈ l ++ [c] ↔ ('"' ∈ l ∨ '"' = c) := by simp

theorem statusRest_eq (mode : Bool) (cs cur1 : List Char) (acc1 : List String) :
    ∀ (cur2 : List Char) (acc2 : List String),
      ('"' ∈ cur1 ↔ '"' ∈ cur2) → (cur1 = [] ↔ cur2 = []) →
      statusRest (csvRun mode cs cur1 acc1) = statusRest (csvRun mode cs cur2 acc2) := by
  induction mode, cs, cur1, acc1 using csvRun.induct with
  | case1 cur acc hq =>
    intro cur2 acc2 hqi _
    simp [csvRun, hq, hqi.mp hq, statusRest]
  | case2 cur acc hq =>
    intro cur2 acc2 hqi _
    have hq2 : ¬ '"' ∈ cur2 := fun hc => hq (hqi.mpr hc)
    simp [csvRun, hq, hq2, statusRest]
  | case3 r cur acc hq =>
    intro cur2 acc2 hqi _
    simp [csvRun, hq, hqi.mp hq, statusRest]
  | case4 r cur acc hq ih =>
    intro cur2 acc2 hqi _
    have hq2 : ¬ '"' ∈ cur2 := fun hc => hq (hqi.mpr hc)
    simp only [csvRun, if_neg hq, if_neg hq2]
    exact ih [] (acc2 ++ [⟨cur2⟩]) Iff.rfl Iff.rfl
  | case5 r cur acc hq =>
    intro cur2 acc2 hqi _
    simp [csvRun, hq, hqi.mp hq, statusRest]
  | case6 r cur acc hq =>
    intro cur2 acc2 hqi _
    have hq2 : ¬ '"' ∈ cur2 := fun hc => hq (hqi.mpr hc)
    simp [csvRun, hq, hq2, statusRest]
  | case7 r cur acc hq =>
    intro cur2 acc2 hqi _
    simp [csvRun, hq, hqi.mp hq, statusRest]
  | case8 r cur acc hq =>
    intro cur2 acc2 hqi _
    have hq2 : ¬ '"' ∈ cur2 := fun hc => hq (hqi.mpr hc)
    simp [csvRun, hq, hq2, statusRest]
  | case9 r acc ih =>
    intro cur2 acc2 _ hei
    have hc2 : cur2 = [] := hei.mp rfl
    subst hc2
    simp only [csvRun, if_pos rfl]
    exact ih [] acc2 Iff.rfl Iff.rfl
  | case10 r cur acc hcur ih =>
    intro cur2 acc2 hqi hei
    have hc2 : cur2 ≠ [] := fun hc => hcur (hei.mpr hc)
    simp only [csvRun, if_neg hcur, if_neg hc2]
    refine ih (cur2 ++ ['"']) acc2 ?_ ?_
    · rw [quote_mem_append, quote_mem_append]
      constructor
      · intro _; exact Or.inr rfl
      · intro _; exact Or.inr rfl
    · constructor <;> intro h <;> simp at h
  | case11 c r cur acc hc1 hc2 hc3 hc4 ih =>
    intro cur2 acc2 hqi hei
    rw [csvRun_false_catch c r cur acc hc1 hc2 hc3 hc4,
        csvRun_false_catch c r cur2 acc2 hc1 hc2 hc3 hc4]
    refine ih (cur2 ++ [c]) acc2 ?_ ?_
    · rw [quote_mem_append, quote_mem_append]
      constructor
      · intro h
        rcases h with h | h
        · exact Or.inl (hqi.mp h)
        · exact (hc4 h.symm).elim
      · intro h
        rcases h with h | h
        · exact Or.inl (hqi.mpr h)
        · exact (hc4 h.symm).elim
    · constructor <;> intro h <;> simp at h
  | case12 cur acc =>
    intro cur2 acc2 _ _
    simp [csvRun, statusRest]
  | case13 r2 cur acc ih =>
    intro cur2 acc2 hqi hei
    simp only [csvRun]
    refine ih (cur2 ++ ['"']) acc2 ?_ ?_
    · rw [quote_mem_append, quote_mem_append]
      constructor
      · intro _; exact Or.inr rfl
      · intro _; exact Or.inr rfl
    · constructor <;> intro h <;> simp at h
  | case14 r2 cur acc ih =>
    intro cur2 acc2 _ _
    simp only [csvRun]
    exact ih [] (acc2 ++ [⟨cur2⟩]) Iff.rfl Iff.rfl
  | case15 r2 cur acc =>
    intro cur2 acc2 _ _
    simp [csvRun, statusRest]
  | case16 r2 cur acc =>
    intro cur2 acc2 _ _
    simp [csvRun, statusRest]
  | case17 cur acc =>
    intro cur2 acc2 _ _
    simp [csvRun, statusRest]
  | case18 d r2 cur acc hc1 hc2 hc3 hc4 =>
    intro cur2 acc2 _ _
    rw [csvRun_true_quote_err d r2 cur acc hc1 hc2 hc3 hc4,
        csvRun_true_quote_err d r2 cur2 acc2 hc1 hc2 hc3 hc4]
  | case19 r cur acc ih =>
    intro cur2 acc2 hqi hei
    simp only [csvRun]
    refine ih (cur2 ++ ['\n']) acc2 ?_ ?_
    · constructor
      · intro h
        simp only [List.mem_append] at h ⊢
        rcases h with h | h
        · exact Or.inl (hqi.mp h)
        · simp at h
      · intro h
        simp only [List.mem_append] at h ⊢
        rcases h with h | h
        · exact Or.inl (hqi.mpr h)
        · simp at h
    · constructor <;> intro h <;> simp at h
  | case20 c r cur acc hc1 hc2 hc3 hc4 hc5 hc6 hc7 ih =>
    intro cur2 acc2 hqi hei
    have hq : c ≠ '"' := by
      intro hc
      cases r with
      | nil => exact hc5 hc rfl
      | cons x t => exact hc6 x t hc rfl
    rw [csvRun_true_catch c r cur acc hq hc7,
        csvRun_true_catch c r cur2 acc2 hq hc7]
    refine ih (cur2 ++ [c]) acc2 ?_ ?_
    · rw [quote_mem_append, quote_mem_append]
      constructor
      · intro h
        rcases h with h | h
        · exact Or.inl (hqi.mp h)
        · exact (hq h.symm).elim
      · intro h
        rcases h with h | h
        · exact Or.inl (hqi.mpr h)
        · exact (hq h.symm).elim
    · constructor <;> intro h <;> simp at h

theorem skipBlank_eq_self (c : Char) (r : List Char) (h1 : c ≠ '\n') (h2 : c ≠ '\r') :
    skipBlank (c :: r) = c :: r := by
  simp [skipBlank, h1, h2]

theorem skipBlank_le (cs : List Char) : (skipBlank cs).length ≤ cs.length := by
  induction cs using skipBlank.induct with
  | case1 r ih =>
    have h : skipBlank ('\n' :: r) = skipBlank r := rfl
    rw [h]; simp only [List.length_cons]; omega
  | case2 r ih =>
    have h : skipBlank ('\r' :: '\n' :: r) = skipBlank r := rfl
    rw [h]; simp only [List.length_cons]; omega
  | case3 cs h1 h2 =>
    have h : skipBlank cs = cs := by
      cases cs with
      | nil => rfl
      | cons c r =>
        by_cases hc1 : c = '\n'
        · exact ((h1 r (by rw [hc1])).elim)
        · by_cases hc2 : c = '\r'
          · cases r with
            | nil => subst hc2; decide
            | cons d r2 =>
              by_cases hd : d = '\n'
              · exact ((h2 r2 (by rw [hc2, hd])).elim)
              · rw [hc2]; simp [skipBlank, hd]
          · exact skipBlank_eq_self c r hc1 hc2
    rw [h]

theorem readAllRecs_fuel : ∀ (N : ℕ) (cs : List Char), cs.length ≤ N →
    ∀ f1 f2, cs.length < f1 → cs.length < f2 → readAllRecs f1 cs = readAllRecs f2 cs := by
  intro N
  induction N with
  | zero =>
    intro cs hle f1 f2 hf1 hf2
    cases cs with
    | cons c t => simp at hle
    | nil =>
      obtain ⟨g1, rfl⟩ := Nat.exists_eq_succ_of_ne_zero (by omega : f1 ≠ 0)
      obtain ⟨g2, rfl⟩ := Nat.exists_eq_succ_of_ne_zero (by omega : f2 ≠ 0)
      rfl
  | succ N ih =>
    intro cs hle f1 f2 hf1 hf2
    obtain ⟨g1, rfl⟩ := Nat.exists_eq_succ_of_ne_zero (by omega : f1 ≠ 0)
    obtain ⟨g2, rfl⟩ := Nat.exists_eq_succ_of_ne_zero (by omega : f2 ≠ 0)
    rw [readAllRecs, readAllRecs]
    by_cases hsb : skipBlank cs = []
    · rw [if_pos hsb, if_pos hsb]
    · rw [if_neg hsb, if_neg hsb]
      have hpos : 0 < (skipBlank cs).length := List.length_pos.mpr hsb
      have hsl := skipBlank_le cs
      cases hx : csvRun false (skipBlank cs) [] [] with
      | error u => rfl
      | ok p =>
        obtain ⟨rec, rest⟩ := p
        show Except.map (fun rs => rec :: rs) (readAllRecs g1 rest) =
          Except.map (fun rs => rec :: rs) (readAllRecs g2 rest)
        rcases csvRun_rest false (skipBlank cs) [] [] rec rest hx with hlt | hnil
        · rw [ih rest (by omega) g1 g2 (by omega) (by omega)]
        · subst hnil
          rw [ih [] (by simp) g1 g2 (by simp; omega) (by simp; omega)]

theorem normCR_cons_ne (c : Char) (r : List Char) (h : c ≠ '\r') :
    normCR (c :: r) = c :: normCR r := by
  simp [normCR, h]

theorem header_statusRest (c0 : Char) (t2 : List Char)
    (h1 : c0 ≠ '"') (h2 : c0 ≠ '\n') (h3 : c0 ≠ '\r') :
    statusRest (csvRun false ('\uFEFF' :: c0 :: t2) [] []) =
      statusRest (csvRun false (c0 :: t2) [] []) := by
  have hstep : csvRun false ('\uFEFF' :: c0 :: t2) [] [] =
      csvRun false (c0 :: t2) ['\uFEFF'] [] := by
    rw [csvRun_false_catch '\uFEFF' (c0 :: t2) [] [] (by decide) (by decide)
      (fun r2 hc _ => by simp at hc) (by decide)]
    rfl
  rw [hstep]
  by_cases hc : c0 = ','
  · subst hc
    have e1 : csvRun false (',' :: t2) ['\uFEFF'] [] =
        csvRun false t2 [] [⟨['\uFEFF']⟩] := by
      simp only [csvRun]
      rw [if_neg (by decide)]
      rfl
    have e2 : csvRun false (',' :: t2) [] [] = csvRun false t2 [] [⟨[]⟩] := by
      simp only [csvRun]
      rw [if_neg (by simp)]
      rfl
    rw [e1, e2]
    exact statusRest_eq false t2 [] [⟨['\uFEFF']⟩] [] [⟨[]⟩] Iff.rfl Iff.rfl
  · rw [csvRun_false_catch c0 t2 ['\uFEFF'] [] hc h2 (fun r2 hcr _ => h3 hcr) h1,
        csvRun_false_catch c0 t2 [] [] hc h2 (fun r2 hcr _ => h3 hcr) h1]
    refine statusRest_eq false t2 (['\uFEFF'] ++ [c0]) [] ([] ++ [c0]) [] ?_ ?_
    · rw [quote_mem_append, quote_mem_append]
      constructor
      · intro h
        rcases h with h | h
        · simp at h
        · exact Or.inr h
      · intro h
        rcases h with h | h
        · simp at h
        · exact Or.inr h
    · constructor <;> intro h <;> simp at h

def tailStream : Except Unit (List (List String)) → Except Unit (List TableSchema)
  | Except.error _ => Except.error ()
  | Except.ok [] => Except.error ()
  | Except.ok (_ :: recs) => Except.ok (recs.foldl processRecord [])

theorem parseStream_eq (raw : List Char) :
    parseStream raw = tailStream (readAllRecs ((normCR raw).length + 1) (normCR raw)) := by
  rw [parseStream]
  cases readAllRecs ((normCR raw).length + 1) (normCR raw) with
  | error u => rfl
  | ok rs => cases rs with
    | nil => rfl
    | cons a t => rfl

/-- C8, amended: parseSchemas leaves a UTF-8 byte-order mark in place, where
it is absorbed into the first field of the discarded header record; hence for
any nonempty stream whose first character is not a double quote, a newline or
a carriage return, parsing with and without a leading BOM yields the same
result. -/
theorem bom_equiv (s : List Char) (hne : s ≠ [])
    (hq : s.head? ≠ some '"') (hn : s.head? ≠ some '\n') (hr : s.head? ≠ some '\r') :
    parseStream ('\uFEFF' :: s) = parseStream s := by
  obtain ⟨c0, s2, rfl⟩ := List.exists_cons_of_ne_nil hne
  simp only [List.head?_cons, ne_eq, Option.some.injEq] at hq hn hr
  have hn2 : normCR (c0 :: s2) = c0 :: normCR s2 := normCR_cons_ne c0 s2 hr
  have hn1 : normCR ('\uFEFF' :: c0 :: s2) = '\uFEFF' :: c0 :: normCR s2 := by
    rw [show normCR ('\uFEFF' :: c0 :: s2) = '\uFEFF' :: normCR (c0 :: s2) from
      normCR_cons_ne _ _ (by decide), hn2]
  set t2 := normCR s2 with ht2
  have hs1 : skipBlank ('\uFEFF' :: c0 :: t2) = '\uFEFF' :: c0 :: t2 :=
    skipBlank_eq_self _ _ (by decide) (by decide)
  have hs2 : skipBlank (c0 :: t2) = c0 :: t2 := skipBlank_eq_self c0 t2 hn hr
  have hsr := header_statusRest c0 t2 hq hn hr
  rw [parseStream_eq, parseStream_eq, hn1, hn2]
  cases hx : csvRun false ('\uFEFF' :: c0 :: t2) [] [] with
  | error u =>
    cases hy : csvRun false (c0 :: t2) [] [] with
    | error v =>
      have e1 : readAllRecs (('\uFEFF' :: c0 :: t2 : List Char).length + 1)
          ('\uFEFF' :: c0 :: t2) = Except.error () := by
        rw [readAllRecs, hs1, if_neg (by simp), hx]
      have e2 : readAllRecs ((c0 :: t2 : List Char).length + 1) (c0 :: t2) =
          Except.error () := by
        rw [readAllRecs, hs2, if_neg (by simp), hy]
      rw [e1, e2]
    | ok p =>
      exfalso
      rw [hx, hy] at hsr
      simp [statusRest] at hsr
  | ok p1 =>
    obtain ⟨rec1, rest1⟩ := p1
    cases hy : csvRun false (c0 :: t2) [] [] with
    | error v =>
      exfalso
      rw [hx, hy] at hsr
      simp [statusRest] at hsr
    | ok p2 =>
      obtain ⟨rec2, rest2⟩ := p2
      have hrest : rest1 = rest2 := by
        rw [hx, hy] at hsr
        simpa [statusRest] using hsr
      subst hrest
      have e1 : readAllRecs (('\uFEFF' :: c0 :: t2 : List Char).length + 1)
          ('\uFEFF' :: c0 :: t2) =
          Except.map (fun rs => rec1 :: rs)
            (readAllRecs (('\uFEFF' :: c0 :: t2 : List Char).length) rest1) := by
        rw [readAllRecs, hs1, if_neg (by simp), hx]
      have e2 : readAllRecs ((c0 :: t2 : List Char).length + 1) (c0 :: t2) =
          Except.map (fun rs => rec2 :: rs)
            (readAllRecs ((c0 :: t2 : List Char).length) rest1) := by
        rw [readAllRecs, hs2, if_neg (by simp), hy]
      have hb := csvRun_rest false (c0 :: t2) [] [] rec2 rest1 hy
      have hfe : readAllRecs (('\uFEFF' :: c0 :: t2 : List Char).length) rest1 =
          readAllRecs ((c0 :: t2 : List Char).length) rest1 := by
        have hlen1 : ('\uFEFF' :: c0 :: t2 : List Char).length = t2.length + 2 := by
          simp
        have hlen2 : (c0 :: t2 : List Char).length = t2.length + 1 := by simp
        rw [hlen1, hlen2]
        rcases hb with hlt | hnil
        · have hle2 : rest1.length ≤ t2.length := by
            simp only [List.length_cons] at hlt
            omega
          exact readAllRecs_fuel t2.length rest1 hle2 _ _ (by omega) (by omega)
        · subst hnil
          exact readAllRecs_fuel 0 [] (by simp) _ _
            (by simp only [List.length_nil]; omega)
            (by simp only [List.length_nil]; omega)
      rw [e1, e2, hfe]
      cases hz : readAllRecs ((c0 :: t2 : List Char).length) rest1 with
      | error u => rfl
      | ok rs => rfl

theorem bom_equiv_witness :
    ("TBL,COL,2,VARCHAR,Yes".toList ≠ [] ∧
      ("TBL,COL,2,VARCHAR,Yes".toList.head? ≠ some '"' ∧
        "TBL,COL,2,VARCHAR,Yes".toList.head? ≠ some '\n' ∧
        "TBL,COL,2,VARCHAR,Yes".toList.head? ≠ some '\r')) ∧
    parseStream ('\uFEFF' :: "TBL,COL,2,VARCHAR,Yes".toList) =
      parseStream "TBL,COL,2,VARCHAR,Yes".toList :=
  ⟨⟨by decide, by decide, by decide, by decide⟩,
    bom_equiv "TBL,COL,2,VARCHAR,Yes".toList (by decide) (by decide) (by decide)
      (by decide)⟩

end Nasr
